import Mathlib

/-! # cutepig::block_allocator — slab / slot allocation engine

A shallow embedding of `block_allocator<T, N>::block_block` (one slab: an
occupancy bitmap plus list links), `block_allocator<T, N>::block_list` (the
arena: a doubly linked list of slabs with `head` and `tail`) and of the two
delegating members `block_allocator::allocate` / `block_allocator::deallocate`
of `allocator.h`, followed by theorems about them.

Memory model.  A slab lives at an address, a natural number.  The embedded
slab `block_list::block` has address `0`; every slab obtained from `_alloc`
gets the next unused address `brk`.  `heap a = none` means that nothing lives
at `a` (never allocated, or released by `_free`).  A `T*` into slab storage is
a pair (slab address, element offset).  Dereferencing a null pointer or the
address of a released slab is reported as `fault`.

Integer model.  `int` is 32 bits wide and kept as its two's complement bit
pattern, a natural number below `2^32`; arithmetic on it wraps.  `bitmask_t`
(`int_32_64::type`) is an unsigned integer of `W` bits, `W = 8 * sizeof(int*)`.
Converting an `int` to `bitmask_t` extends the sign.
-/

set_option autoImplicit false

namespace cutepig

/-- Instantiation parameters: `N` is the template argument `_number_of_slots`,
`W` the width in bits of `int_32_64::type`. -/
structure Params where
  N : Nat
  W : Nat
deriving DecidableEq, Repr

/-- The value `1 << i` of type `int`, as a 32-bit pattern. -/
def shl1 (i : Nat) : Nat := (1 <<< i) % 2 ^ 32

/-- Conversion of an `int` (given as its 32-bit pattern) to `bitmask_t`:
sign extension to `W` bits. -/
def toMask (c : Params) (x : Nat) : Nat :=
  if x < 2 ^ 31 then x else x + (2 ^ c.W - 2 ^ 32)

/-- The operand `(1<<i)` after conversion to `bitmask_t`. -/
def bit (c : Params) (i : Nat) : Nat := toMask c (shl1 i)

/-- The constant `fullmask = (1<<_number_of_slots) - 1`: computed in `int`,
then converted to `bitmask_t`. -/
def fullmask (c : Params) : Nat := toMask c ((shl1 c.N + (2 ^ 32 - 1)) % 2 ^ 32)

/-- Bitwise complement `~x` of a `bitmask_t` value. -/
def mnot (c : Params) (x : Nat) : Nat := 2 ^ c.W - 1 - x

/-- A pointer of type `T*` into the storage of a slab: `&ptr[idx]` of the slab
at address `blk`. -/
structure Ptr where
  blk : Nat
  idx : Nat
deriving DecidableEq, Repr

/-- The struct `block_block` without its element storage: the two links (a
null pointer is `none`) and the occupancy bitmap. -/
structure block_block where
  prev : Option Nat
  next : Option Nat
  slots : Nat
deriving DecidableEq, Repr

namespace block_block

/-- The constructor `block_block()`. -/
def new : block_block := { prev := none, next := none, slots := 0 }

/-- The member `hasroom()`: `(slots & fullmask) != fullmask`. -/
def hasroom (c : Params) (b : block_block) : Bool :=
  (b.slots &&& fullmask c) != fullmask c

/-- The member `isempty()`: `slots == 0`. -/
def isempty (b : block_block) : Bool := b.slots == 0

/-- The loop of `block_block::allocate`, entered with loop variable `i` and
`n` iterations left: the first `i` with `!(slots & (1<<i))` is marked and
returned; `none` is the final `return 0`. -/
def scan (c : Params) (slots : Nat) : Nat → Nat → Option (Nat × Nat)
  | 0, _ => none
  | n + 1, i =>
    if slots &&& bit c i = 0 then some (i, slots ||| bit c i)
    else scan c slots n (i + 1)

/-- The member `allocate()`: the offset of the returned element (`none` for a
null result) and the slab afterwards. -/
def allocate (c : Params) (b : block_block) : Option Nat × block_block :=
  match scan c b.slots c.N 0 with
  | some (i, s) => (some i, { b with slots := s })
  | none => (none, b)

/-- The member `deallocate(p)`, given the offset `p - ptr`:
`slots &= ~(1 << (p - ptr))`. -/
def deallocate (c : Params) (b : block_block) (off : Nat) : block_block :=
  { b with slots := b.slots &&& mnot c (bit c off) }

/-- The member `inblock(p)` of the slab at address `a`:
`p >= ptr && p < &ptr[_number_of_slots]`. -/
def inblock (c : Params) (a : Nat) (p : Ptr) : Bool :=
  p.blk == a && (decide (0 ≤ p.idx) && decide (p.idx < c.N))

end block_block

/-- The struct `block_list` together with the memory its pointers refer to.
`heap 0` is the embedded member `block`. -/
structure block_list where
  refcount : Nat
  heap : Nat → Option block_block
  brk : Nat
  head : Option Nat
  tail : Option Nat

/-- What a call does: it returns `r` leaving the arena `s`; it throws
`std::bad_alloc` with the arena being `s` at the throw; it dereferences a null
or released pointer; or its loop runs out of steps. -/
inductive Outcome (α : Type) where
  | ok (r : α) (s : block_list)
  | bad_alloc (s : block_list)
  | fault
  | hang

/-- Result of the search loop of `block_list::deallocate`. -/
inductive Scan where
  | found (iter : Nat)
  | null
  | fault
  | hang
deriving DecidableEq, Repr

namespace block_list

/-- Address of the embedded member `block`. -/
def block : Nat := 0

/-- The constructor `block_list()`:
`refcount(1), block(), head(&block), tail(&block)`. -/
def new : block_list :=
  { refcount := 1
    heap := fun a => if a = block then some block_block.new else none
    brk := 1
    head := some block
    tail := some block }

/-- Write the slab `b` at address `a`. -/
def store (l : block_list) (a : Nat) (b : block_block) : block_list :=
  { l with heap := Function.update l.heap a (some b) }

/-- The member `_alloc`: `malloc`, which yields the next unused address, or a
null pointer when `avail` is false. -/
def _alloc (avail : Bool) (l : block_list) : Option Nat × block_list :=
  if avail then (some l.brk, { l with brk := l.brk + 1 }) else (none, l)

/-- The member `_free`. -/
def _free (l : block_list) (a : Nat) : block_list :=
  { l with heap := Function.update l.heap a none }

/-- The statements of `allocate` that move a filled `head` behind `tail`. -/
def demote (l : block_list) : Option block_list := do
  -- tail->next = head;
  let t ← l.tail
  let tb ← l.heap t
  let l := l.store t { tb with next := l.head }
  -- head->prev = tail;
  let h ← l.head
  let hb ← l.heap h
  let l := l.store h { hb with prev := l.tail }
  -- tail = head;
  let l := { l with tail := l.head }
  -- head = head->next;
  let h ← l.head
  let hb ← l.heap h
  let l := { l with head := hb.next }
  -- head->prev = tail->next = 0;
  let t ← l.tail
  let tb ← l.heap t
  let l := l.store t { tb with next := none }
  let h ← l.head
  let hb ← l.heap h
  let l := l.store h { hb with prev := none }
  pure l

/-- The else branch of `allocate`: a new slab becomes `head`. -/
def grow (c : Params) (avail : Bool) (l : block_list) : Option (Option Ptr × block_list) := do
  -- block_block *block = new(_alloc(sizeof(*block))) block_block();
  -- (the result of _alloc is not checked: the constructor writes through it)
  let (m, l) := l._alloc avail
  let a ← m
  let l := l.store a block_block.new
  -- block->next = head;
  let ab ← l.heap a
  let l := l.store a { ab with next := l.head }
  -- head->prev = block;
  let h ← l.head
  let hb ← l.heap h
  let l := l.store h { hb with prev := some a }
  -- head = block;
  let l := { l with head := some a }
  -- return head->allocate();
  let h ← l.head
  let hb ← l.heap h
  let (r, hb) := hb.allocate c
  pure (r.map (Ptr.mk h), l.store h hb)

/-- The then branch of `allocate`: take a slot of `head`, and move `head`
behind `tail` when that filled it. -/
def take (c : Params) (l : block_list) : Option (Option Ptr × block_list) := do
  -- pointer r = head->allocate();
  let h ← l.head
  let hb ← l.heap h
  let (r, hb) := hb.allocate c
  let l := l.store h hb
  -- if(!head->hasroom() && head != tail)
  let hb ← l.heap h
  if !hb.hasroom c && l.head != l.tail then
    let l ← l.demote
    pure (r.map (Ptr.mk h), l)
  else
    pure (r.map (Ptr.mk h), l)

/-- The member `block_list::allocate()`; `avail` tells whether `malloc` can
provide storage. The result is the returned pointer, `none` when null. -/
def allocate (c : Params) (avail : Bool) (l : block_list) : Outcome (Option Ptr) :=
  match l.head.bind l.heap with
  | none => .fault
  | some hb =>
    match (if hb.hasroom c then l.take c else l.grow c avail) with
    | none => .fault
    | some (r, l) => .ok r l

/-- The search loop of `deallocate`:
`for(iter = head; iter != 0; iter = iter->next) if(iter->inblock(p)) break;`
with a bound on the number of iterations. -/
def find (c : Params) (p : Ptr) (l : block_list) : Nat → Option Nat → Scan
  | _, none => .null
  | 0, some _ => .hang
  | n + 1, some iter =>
    match l.heap iter with
    | none => .fault
    | some b => if block_block.inblock c iter p then .found iter else find c p l n b.next

/-- The two statements that open both the detach and the move-to-head branch
of `deallocate`. -/
def unlink (iter : Nat) (l : block_list) : Option block_list := do
  -- if(iter->prev) iter->prev->next = iter->next;
  let ib ← l.heap iter
  let l ← match ib.prev with
    | none => some l
    | some pv => (l.heap pv).map fun pb => l.store pv { pb with next := ib.next }
  -- if(iter->next) iter->next->prev = iter->prev;
  let ib ← l.heap iter
  match ib.next with
    | none => some l
    | some nx => (l.heap nx).map fun nb => l.store nx { nb with prev := ib.prev }

/-- The branch of `deallocate` taken when the slab became empty and is not the
embedded one: detach it from the list and release it. -/
def detach (iter : Nat) (l : block_list) : Option block_list := do
  let l ← l.unlink iter
  -- if(iter == head) head = iter->next;
  let ib ← l.heap iter
  let l := if l.head = some iter then { l with head := ib.next } else l
  -- if(iter == tail) tail = iter->prev;
  let ib ← l.heap iter
  let l := if l.tail = some iter then { l with tail := ib.prev } else l
  -- _free( iter );
  pure (l._free iter)

/-- The branch of `deallocate` taken when the slab was full and is not `head`:
move it back to head. -/
def tohead (iter : Nat) (l : block_list) : Option block_list := do
  let l ← l.unlink iter
  -- iter->next = head;
  let ib ← l.heap iter
  let l := l.store iter { ib with next := l.head }
  -- iter->prev = 0;
  let ib ← l.heap iter
  let l := l.store iter { ib with prev := none }
  -- head->prev = iter;
  let h ← l.head
  let hb ← l.heap h
  let l := l.store h { hb with prev := some iter }
  -- head = iter;
  pure { l with head := some iter }

/-- The body of `deallocate` after the search loop found `iter`. -/
def settle (c : Params) (p : Ptr) (iter : Nat) (l : block_list) : Option block_list := do
  -- wasfull = !iter->hasroom();
  let ib ← l.heap iter
  let wasfull := !ib.hasroom c
  -- iter->deallocate(p);
  let l := l.store iter (ib.deallocate c p.idx)
  let ib ← l.heap iter
  -- if(iter->isempty() && iter != &block)
  if ib.isempty && iter != block then l.detach iter
  -- else if(wasfull && iter != head)
  else if wasfull && l.head != some iter then l.tohead iter
  else pure l

/-- The member `block_list::deallocate(p)`. The search loop gets `brk + 1`
iterations: all slabs ever created have addresses below `brk`. -/
def deallocate (c : Params) (p : Ptr) (l : block_list) : Outcome Unit :=
  match l.find c p (l.brk + 1) l.head with
  | .hang => .hang
  | .fault => .fault
  | .null => .bad_alloc l
  | .found iter =>
    match l.settle c p iter with
    | none => .fault
    | some l => .ok () l

/-- The slabs met by following `next` from `a`, each with its bitmap, for at
most `n` steps; `none` when a link leads to no slab or `n` steps do not reach
the null link. -/
def walk (l : block_list) : Nat → Option Nat → Option (List (Nat × Nat))
  | _, none => some []
  | 0, some _ => none
  | n + 1, some a =>
    match l.heap a with
    | none => none
    | some b => (walk l n b.next).map fun r => (a, b.slots) :: r

/-- The arena's list: the slabs reachable from `head`, in order. -/
def slabs (l : block_list) : Option (List (Nat × Nat)) := l.walk (l.brk + 1) l.head

end block_list

/-- The member `block_allocator::allocate(n, hint)`, on the arena the handle
is bound to: a null result of `blocks->allocate()` becomes `std::bad_alloc`. -/
def block_allocator.allocate (c : Params) (avail : Bool) (l : block_list) : Outcome Ptr :=
  match l.allocate c avail with
  | .ok (some r) s => .ok r s
  | .ok none s => .bad_alloc s
  | .bad_alloc s => .bad_alloc s
  | .fault => .fault
  | .hang => .hang

/-- The member `block_allocator::deallocate(p, n)`, on the arena the handle is
bound to: `if(p) blocks->deallocate(p);`. -/
def block_allocator.deallocate (c : Params) (p : Option Ptr) (l : block_list) : Outcome Unit :=
  match p with
  | none => .ok () l
  | some q => l.deallocate c q

/-! ## Call sequences -/

/-- One call on the arena. -/
inductive Op where
  | alloc
  | dealloc (p : Ptr)
deriving DecidableEq, Repr

/-- Why a call sequence stopped: `misuse` is a `dealloc` of a pointer that is
not live (the sequence is not a valid one); the others are what the code did:
`std::bad_alloc` thrown, a null or released pointer dereferenced, a loop that
ran out of steps, a null pointer returned by `allocate`. -/
inductive Stop where
  | misuse
  | bad_alloc
  | fault
  | hang
  | null
deriving DecidableEq, Repr

/-- The arena during a call sequence, with the bookkeeping of the caller:
the pointers returned by `allocate` and not deallocated since, all pointers
returned so far (latest first), and the numbers of completed calls. -/
structure Run where
  arena : block_list
  live : List Ptr
  out : List Ptr
  allocs : Nat
  deallocs : Nat

/-- A freshly constructed arena, before any call. -/
def Run.new : Run :=
  { arena := block_list.new, live := [], out := [], allocs := 0, deallocs := 0 }

/-- One call of a sequence; the system allocator never fails. -/
def step (c : Params) (r : Run) : Op → Except Stop Run
  | .alloc =>
    match r.arena.allocate c true with
    | .ok (some p) l =>
      .ok { r with arena := l, live := p :: r.live, out := p :: r.out, allocs := r.allocs + 1 }
    | .ok none _ => .error .null
    | .bad_alloc _ => .error .bad_alloc
    | .fault => .error .fault
    | .hang => .error .hang
  | .dealloc p =>
    if p ∈ r.live then
      match r.arena.deallocate c p with
      | .ok _ l => .ok { r with arena := l, live := r.live.erase p, deallocs := r.deallocs + 1 }
      | .bad_alloc _ => .error .bad_alloc
      | .fault => .error .fault
      | .hang => .error .hang
    else .error .misuse

/-- A call sequence, from left to right. -/
def exec (c : Params) : List Op → Run → Except Stop Run
  | [], r => .ok r
  | o :: os, r =>
    match step c r o with
    | .ok r1 => exec c os r1
    | .error e => .error e

/-- The reason a sequence stopped, `none` when every call completed. -/
def stopped : Except Stop Run → Option Stop
  | .ok _ => none
  | .error e => some e

/-- The reason a call did not return, `none` when it returned. -/
def Outcome.stop {α : Type} : Outcome α → Option Stop
  | .ok _ _ => none
  | .bad_alloc _ => some .bad_alloc
  | .fault => some .fault
  | .hang => some .hang

/-- Number of set bits among the positions `0..n-1` of a bitmap. -/
def popcount (slots : Nat) : Nat → Nat
  | 0 => 0
  | n + 1 => popcount slots n + (if slots.testBit n then 1 else 0)

/-- Total number of set occupancy bits over the slabs of the arena's list. -/
def block_list.liveSlots (c : Params) (l : block_list) : Nat :=
  ((l.slabs.getD []).map fun x => popcount x.2 c.N).sum

/-- Addresses of the slabs of the arena's list for which `hasroom()` holds. -/
def block_list.roomy (c : Params) (l : block_list) : List Nat :=
  ((l.slabs.getD []).filter fun x => block_block.hasroom c ⟨none, none, x.2⟩).map Prod.fst

/-- Addresses that hold a slab: the embedded one and every slab obtained from
`_alloc` and not yet given to `_free`. -/
def block_list.allocated (l : block_list) : List Nat :=
  (List.range l.brk).filter fun a => (l.heap a).isSome

/-- The observable part of an arena: its list (address and bitmap of each
slab, from `head` on), `head`, `tail`, and the addresses that hold a slab. -/
structure Snapshot where
  slabs : Option (List (Nat × Nat))
  head : Option Nat
  tail : Option Nat
  allocated : List Nat
deriving DecidableEq, Repr

/-- Snapshot of the arena of a run. -/
def Run.snapshot (r : Run) : Snapshot :=
  ⟨r.arena.slabs, r.arena.head, r.arena.tail, r.arena.allocated⟩

/-- The instantiations the bitmap supports: between 1 and 32 slots (the masks
`1<<i` are formed in `int`), and a bitmask of 32 or 64 bits (the two
specialisations of `__int_32_64`). -/
def Params.Valid (c : Params) : Prop := 0 < c.N ∧ c.N ≤ 32 ∧ (c.W = 32 ∨ c.W = 64)

/-- The bitmap `s` has exactly the slots of `S` marked: it is the union of the
masks `(1<<i)` of the offsets `i < N` in `S`. -/
def Rep (c : Params) (s : Nat) (S : Nat → Prop) : Prop :=
  ∀ j, s.testBit j = true ↔ ∃ i, i < c.N ∧ S i ∧ (bit c i).testBit j = true


/-- The element that follows `a` in the list. -/
def nextIn : List Nat → Nat → Option Nat
  | [], _ => none
  | b :: L, a => if b = a then L.head? else nextIn L a

/-- The element that precedes `a` in the list. -/
def prevIn : List Nat → Nat → Option Nat
  | [], _ => none
  | b :: L, a => if L.head? = some a then some b else prevIn L a


/-- The arena's list is `L`: the slabs that exist are exactly those of `L`, `head` is its first
element, every slab carries the links to its neighbours in `L`, and `σ` gives the bitmaps. -/
structure Chain (l : block_list) (L : List Nat) (σ : Nat → Nat) : Prop where
  nodup : L.Nodup
  head : l.head = L.head?
  cell : ∀ a, l.heap a = if a ∈ L then some ⟨prevIn L a, nextIn L a, σ a⟩ else none

/-- The arena is in order with respect to the live pointers `A`: its list is `L`, of slabs with
addresses below `brk` and with the embedded slab among them; the bitmap of each slab marks
exactly the live pointers into it; every live pointer points into a slab of the list; and every
slab obtained from `_alloc` holds a live pointer. -/
structure Inv (c : Params) (l : block_list) (A : List Ptr) (L : List Nat) (σ : Nat → Nat) :
    Prop where
  chain : Chain l L σ
  emb : block_list.block ∈ L
  below : ∀ a, a ∈ L → a < l.brk
  rep : ∀ a, a ∈ L → Rep c (σ a) (fun i => (⟨a, i⟩ : Ptr) ∈ A)
  owned : ∀ p, p ∈ A → p.blk ∈ L ∧ p.idx < c.N
  used : ∀ a, a ∈ L → a ≠ block_list.block → ∃ p, p ∈ A ∧ p.blk = a
  anodup : A.Nodup

/-- An instantiation `block_allocator<T, N>`: the element type (by a number) and the slot
count. -/
structure Inst where
  elem : Nat
  slots : Nat
deriving DecidableEq, Repr

/-- The static members `blocks_static`, one `block_list` for each instantiation. -/
def Statics : Type := Inst → block_list

/-- All `blocks_static` as their constructor leaves them. -/
def Statics.new : Statics := fun _ => block_list.new

/-- An object of class `block_allocator<T, N>`: `inst` tells which instantiation it is of;
`blocks` is its data member, the address of a `block_list`, given by the instantiation whose
`blocks_static` it is. -/
structure block_allocator where
  inst : Inst
  blocks : Inst
deriving DecidableEq, Repr

/-- The statement `blocks->refcount++` on the unsigned `refcount`. -/
def block_list.incref (c : Params) (l : block_list) : block_list :=
  { l with refcount := (l.refcount + 1) % 2 ^ c.W }

/-- The statement `blocks->refcount--` on the unsigned `refcount`. -/
def block_list.decref (c : Params) (l : block_list) : block_list :=
  { l with refcount := (l.refcount + (2 ^ c.W - 1)) % 2 ^ c.W }

/-- The default constructor of instantiation `k`: `blocks = &blocks_static;`. -/
def block_allocator.ctor (k : Inst) (w : Statics) : block_allocator × Statics :=
  (⟨k, k⟩, w)

/-- The copy constructor: `blocks = other.blocks; blocks->refcount++;`. -/
def block_allocator.ctor_copy (c : Params) (other : block_allocator) (w : Statics) :
    block_allocator × Statics :=
  (⟨other.inst, other.blocks⟩, Function.update w other.blocks ((w other.blocks).incref c))

/-- The converting constructor of instantiation `k` from a handle of another instantiation:
`blocks = &blocks_static;`. -/
def block_allocator.ctor_convert (k : Inst) (_other : block_allocator) (w : Statics) :
    block_allocator × Statics :=
  (⟨k, k⟩, w)

/-- The destructor: `blocks->refcount--;`. -/
def block_allocator.dtor (c : Params) (h : block_allocator) (w : Statics) : Statics :=
  Function.update w h.blocks ((w h.blocks).decref c)

/-- The function `operator==`: `a.blocks == b.blocks`. -/
def block_allocator.eq (a b : block_allocator) : Bool := a.blocks == b.blocks

/-- The function `operator!=`: `a.blocks != b.blocks`. -/
def block_allocator.ne (a b : block_allocator) : Bool := a.blocks != b.blocks

/-- The member `deallocate(p, n)` called on the handle `h`: what it does to the arena `h` is
bound to. -/
def block_allocator.deallocate_on (c : Params) (w : Statics) (h : block_allocator)
    (p : Option Ptr) : Outcome Unit :=
  block_allocator.deallocate c p (w h.blocks)

/-- One step in the life of the handles of one instantiation: a default construction, a copy
construction from the `i`-th outstanding handle, or the destruction of the `i`-th outstanding
handle. -/
inductive HOp where
  | construct
  | copy (i : Nat)
  | destroy (i : Nat)
deriving DecidableEq, Repr

/-- The static arenas and the outstanding handles, oldest first. -/
structure HRun where
  statics : Statics
  handles : List block_allocator

/-- Before any handle exists. -/
def HRun.new : HRun := { statics := Statics.new, handles := [] }

/-- One step on the handles of instantiation `k`; `none` when the step names a handle that
does not exist. -/
def hstep (c : Params) (k : Inst) (r : HRun) : HOp → Option HRun
  | .construct =>
    let (h, w) := block_allocator.ctor k r.statics
    some { statics := w, handles := r.handles ++ [h] }
  | .copy i =>
    match r.handles.get? i with
    | none => none
    | some o =>
      let (h, w) := block_allocator.ctor_copy c o r.statics
      some { statics := w, handles := r.handles ++ [h] }
  | .destroy i =>
    match r.handles.get? i with
    | none => none
    | some h =>
      some { statics := block_allocator.dtor c h r.statics, handles := r.handles.eraseIdx i }

/-- A sequence of steps, from left to right. -/
def hexec (c : Params) (k : Inst) : List HOp → HRun → Option HRun
  | [], r => some r
  | o :: os, r =>
    match hstep c k r o with
    | some r1 => hexec c k os r1
    | none => none

/-- The refcount of the arena of instantiation `k` and the number of outstanding handles
bound to it. -/
def HRun.balance (k : Inst) (r : HRun) : Nat × Nat :=
  ((r.statics k).refcount, (r.handles.filter fun h => h.blocks = k).length)

/-- The arena after a run of allocations only: it is in order with a correct `tail`; its `m`
slabs have the addresses below `brk = m`; the head slab holds the `h` slots `0..h-1`, every
other slab is full, and `h` is at least 1 when there is more than one slab. -/
structure Burst (c : Params) (l : block_list) (A : List Ptr) (L : List Nat) (h : Nat) :
    Prop where
  inv : ∃ σ, Inv c l A L σ
  tail : l.tail = L.getLast?
  brk : l.brk = L.length
  le : h ≤ c.N
  pos : 2 ≤ L.length → 1 ≤ h
  front : ∀ y, L.head? = some y → ∀ i, i < c.N → ((⟨y, i⟩ : Ptr) ∈ A ↔ i < h)
  rest : ∀ a, a ∈ L.tail → ∀ i, i < c.N → (⟨a, i⟩ : Ptr) ∈ A

/-- Number of slabs obtained from `_alloc` since the arena was constructed: `_alloc` hands out
the addresses from 1 on, `brk` being the next one. -/
def block_list.obtained (l : block_list) : Nat := l.brk - 1

/-- The slabs reachable from `head` are those of `L`, in this order, linked to their
neighbours in `L`; their addresses are below `brk`, and `tail` is null or one of them. Other
slabs may exist. -/
structure Links (l : block_list) (L : List Nat) : Prop where
  nodup : L.Nodup
  head : l.head = L.head?
  cell : ∀ a, a ∈ L → ∃ b, l.heap a = some b ∧ b.prev = prevIn L a ∧ b.next = nextIn L a
  below : ∀ a, a ∈ L → a < l.brk
  tail : ∀ t, l.tail = some t → t ∈ L

theorem Params.Valid.width {c : Params} (hc : c.Valid) : 32 ≤ c.W := by
  rcases hc.2.2 with h | h <;> omega

theorem bit_of_lt {c : Params} {i : Nat} (h : i < 31) : bit c i = 2 ^ i := by
  have h1 : (2 : Nat) ^ i < 2 ^ 31 := Nat.pow_lt_pow_right (by norm_num) h
  have h2 : (2 : Nat) ^ i % 2 ^ 32 = 2 ^ i := Nat.mod_eq_of_lt (by omega)
  simp only [bit, shl1, Nat.one_shiftLeft, toMask, h2, if_pos h1]

theorem bit_top {c : Params} (hc : c.Valid) : bit c 31 = 2 ^ c.W - 2 ^ 31 := by
  rcases hc.2.2 with h | h <;> simp [bit, shl1, toMask, h]

theorem testBit_bit {c : Params} (hc : c.Valid) {i : Nat} (hi : i < 32) (j : Nat) :
    (bit c i).testBit j = if i < 31 then decide (i = j) else decide (31 ≤ j ∧ j < c.W) := by
  by_cases h : i < 31
  · rw [bit_of_lt h, if_pos h, Nat.testBit_two_pow]
  · have hi31 : i = 31 := by omega
    subst hi31
    rw [bit_top hc, if_neg h]
    have hW := hc.width
    have hlt : (2 : Nat) ^ 31 - 1 < 2 ^ c.W :=
      lt_of_lt_of_le (by norm_num) (Nat.pow_le_pow_right (by norm_num) (by omega : 31 ≤ c.W))
    have e : 2 ^ c.W - 2 ^ 31 = 2 ^ c.W - ((2 ^ 31 - 1) + 1) := by norm_num
    rw [e, Nat.testBit_two_pow_sub_succ hlt, Nat.testBit_two_pow_sub_one]
    by_cases h1 : j < c.W <;> by_cases h2 : j < 31 <;> simp [h1, h2]
    omega

theorem testBit_bit_self {c : Params} (hc : c.Valid) {i : Nat} (hi : i < 32) :
    (bit c i).testBit i = true := by
  rw [testBit_bit hc hi]
  have := hc.width
  split_ifs
  · simp
  · simp
    omega

theorem bit_disjoint {c : Params} (hc : c.Valid) {i k j : Nat} (hi : i < 32) (hk : k < 32)
    (h1 : (bit c i).testBit j = true) (h2 : (bit c k).testBit j = true) : i = k := by
  rw [testBit_bit hc hi] at h1
  rw [testBit_bit hc hk] at h2
  split_ifs at h1 h2 <;> simp at h1 h2 <;> omega

theorem fullmask_of_lt {c : Params} (h : c.N < 32) : fullmask c = 2 ^ c.N - 1 := by
  have h1 : (2 : Nat) ^ c.N < 2 ^ 32 := Nat.pow_lt_pow_right (by norm_num) h
  have h0 : 0 < (2 : Nat) ^ c.N := Nat.pos_pow_of_pos _ (by norm_num)
  have h3 : (2 : Nat) ^ c.N ≤ 2 ^ 31 := Nat.pow_le_pow_right (by norm_num) (by omega)
  have h2 : (2 ^ c.N % 2 ^ 32 + (2 ^ 32 - 1)) % 2 ^ 32 = 2 ^ c.N - 1 := by
    rw [Nat.mod_eq_of_lt h1]
    omega
  simp only [fullmask, shl1, Nat.one_shiftLeft, toMask, h2]
  rw [if_pos (by omega)]

theorem fullmask_top {c : Params} (hc : c.Valid) (h : c.N = 32) : fullmask c = 2 ^ c.W - 1 := by
  rcases hc.2.2 with h1 | h1 <;> simp [fullmask, shl1, toMask, h, h1]

theorem testBit_fullmask {c : Params} (hc : c.Valid) (j : Nat) :
    (fullmask c).testBit j = true ↔ ∃ i, i < c.N ∧ (bit c i).testBit j = true := by
  have hW := hc.width
  have hN := hc.2.1
  by_cases h : c.N < 32
  · rw [fullmask_of_lt h, Nat.testBit_two_pow_sub_one]
    constructor
    · intro hj
      have hj : j < c.N := by simpa using hj
      exact ⟨j, hj, testBit_bit_self hc (by omega)⟩
    · rintro ⟨i, hi, hb⟩
      rw [testBit_bit hc (by omega), if_pos (by omega)] at hb
      have : i = j := by simpa using hb
      simpa [← this] using hi
  · have hN32 : c.N = 32 := by omega
    rw [fullmask_top hc hN32, Nat.testBit_two_pow_sub_one]
    constructor
    · intro hj
      have hj : j < c.W := by simpa using hj
      by_cases h31 : j < 31
      · exact ⟨j, by omega, testBit_bit_self hc (by omega)⟩
      · refine ⟨31, by omega, ?_⟩
        rw [testBit_bit hc (by omega)]
        simp
        omega
    · rintro ⟨i, hi, hb⟩
      rw [testBit_bit hc (by omega)] at hb
      split_ifs at hb <;> simp at hb ⊢ <;> omega

theorem Rep.zero (c : Params) : Rep c 0 (fun _ => False) := by
  intro j
  simp

theorem Rep.congr {c : Params} {s : Nat} {S T : Nat → Prop} (h : Rep c s S)
    (hST : ∀ i, i < c.N → (S i ↔ T i)) : Rep c s T := by
  intro j
  rw [h j]
  constructor
  · rintro ⟨i, hi, hS, hb⟩
    exact ⟨i, hi, (hST i hi).1 hS, hb⟩
  · rintro ⟨i, hi, hS, hb⟩
    exact ⟨i, hi, (hST i hi).2 hS, hb⟩

theorem Rep.land_bit {c : Params} (hc : c.Valid) {s : Nat} {S : Nat → Prop} (h : Rep c s S)
    {i : Nat} (hi : i < c.N) : s &&& bit c i = 0 ↔ ¬ S i := by
  have hN := hc.2.1
  constructor
  · intro h0 hS
    have h1 : (s &&& bit c i).testBit i = true := by
      rw [Nat.testBit_and, testBit_bit_self hc (by omega), (h i).2 ⟨i, hi, hS, testBit_bit_self hc (by omega)⟩]
      rfl
    rw [h0] at h1
    simp at h1
  · intro hS
    apply Nat.eq_of_testBit_eq
    intro j
    rw [Nat.testBit_and, Nat.zero_testBit]
    by_contra hne
    have hne : s.testBit j = true ∧ (bit c i).testBit j = true := by simpa using hne
    obtain ⟨k, hk, hSk, hbk⟩ := (h j).1 hne.1
    have : k = i := bit_disjoint hc (by omega) (by omega) hbk hne.2
    exact hS (this ▸ hSk)

theorem Rep.hasroom {c : Params} (hc : c.Valid) {s : Nat} {S : Nat → Prop} (h : Rep c s S)
    (p n : Option Nat) : block_block.hasroom c ⟨p, n, s⟩ = true ↔ ∃ i, i < c.N ∧ ¬ S i := by
  have hN := hc.2.1
  simp only [block_block.hasroom, bne_iff_ne, ne_eq]
  constructor
  · intro hne
    by_contra hall
    apply hne
    apply Nat.eq_of_testBit_eq
    intro j
    rw [Nat.testBit_and]
    by_cases hf : (fullmask c).testBit j = true
    · obtain ⟨i, hi, hb⟩ := (testBit_fullmask hc j).1 hf
      have hS : S i := by
        by_contra hS
        exact hall ⟨i, hi, hS⟩
      rw [hf, (h j).2 ⟨i, hi, hS, hb⟩]
      rfl
    · simp [hf]
  · rintro ⟨i, hi, hS⟩ heq
    have h1 : (fullmask c).testBit i = true :=
      (testBit_fullmask hc i).2 ⟨i, hi, testBit_bit_self hc (by omega)⟩
    rw [← heq, Nat.testBit_and] at h1
    have h2 : s.testBit i = true := by
      cases hs : s.testBit i
      · rw [hs] at h1
        simp at h1
      · rfl
    obtain ⟨k, hk, hSk, hbk⟩ := (h i).1 h2
    have : k = i := bit_disjoint hc (by omega) (by omega) hbk (testBit_bit_self hc (by omega))
    exact hS (this ▸ hSk)

theorem Rep.lor_bit {c : Params} {s : Nat} {S : Nat → Prop} (h : Rep c s S)
    {i : Nat} (hi : i < c.N) : Rep c (s ||| bit c i) (fun k => S k ∨ k = i) := by
  intro j
  rw [Nat.testBit_or, Bool.or_eq_true, h j]
  constructor
  · rintro (⟨k, hk, hSk, hbk⟩ | hb)
    · exact ⟨k, hk, Or.inl hSk, hbk⟩
    · exact ⟨i, hi, Or.inr rfl, hb⟩
  · rintro ⟨k, hk, hSk | rfl, hbk⟩
    · exact Or.inl ⟨k, hk, hSk, hbk⟩
    · exact Or.inr hbk

theorem Rep.scan {c : Params} (hc : c.Valid) {s : Nat} {S : Nat → Prop} (h : Rep c s S) :
    ∀ (n i0 : Nat), i0 + n = c.N → (∀ i, i < i0 → S i) → (∃ i, i < c.N ∧ ¬ S i) →
      ∃ i, block_block.scan c s n i0 = some (i, s ||| bit c i) ∧ i < c.N ∧ ¬ S i := by
  intro n
  induction n with
  | zero =>
    intro i0 h0 hlow ⟨i, hi, hS⟩
    exact absurd (hlow i (by omega)) hS
  | succ n ih =>
    intro i0 h0 hlow hex
    by_cases hS : S i0
    · have hne : ¬ (s &&& bit c i0 = 0) := by
        rw [h.land_bit hc (by omega)]
        exact not_not.2 hS
      simp only [block_block.scan, if_neg hne]
      apply ih (i0 + 1) (by omega) _ hex
      intro i hi
      by_cases hi0 : i = i0
      · exact hi0 ▸ hS
      · exact hlow i (by omega)
    · have he : s &&& bit c i0 = 0 := (h.land_bit hc (by omega)).2 hS
      exact ⟨i0, by simp only [block_block.scan, if_pos he], by omega, hS⟩

/-- Slab allocation on a slab with room: a free offset is returned and marked. -/
theorem Rep.slab_allocate {c : Params} (hc : c.Valid) {b : block_block} {S : Nat → Prop}
    (h : Rep c b.slots S) (hroom : b.hasroom c = true) :
    ∃ i, b.allocate c = (some i, { b with slots := b.slots ||| bit c i }) ∧ i < c.N ∧ ¬ S i ∧
      Rep c (b.slots ||| bit c i) (fun k => S k ∨ k = i) := by
  have hex := (h.hasroom hc b.prev b.next).1 hroom
  obtain ⟨i, hscan, hi, hS⟩ := h.scan hc c.N 0 (by omega) (by intro i hi; omega) hex
  exact ⟨i, by simp only [block_block.allocate, hscan], hi, hS, h.lor_bit hi⟩

/-! ## Neighbours in a list of addresses -/

theorem head?_mem {L : List Nat} {a : Nat} (h : L.head? = some a) : a ∈ L := by
  cases L with
  | nil => simp at h
  | cons b M =>
    simp at h
    simp [h]

theorem nextIn_mem {L : List Nat} {a b : Nat} (h : nextIn L a = some b) : b ∈ L ∧ a ∈ L := by
  induction L with
  | nil => simp [nextIn] at h
  | cons x M ih =>
    simp only [nextIn] at h
    split_ifs at h with hx
    · exact ⟨List.mem_cons_of_mem _ (head?_mem h), by simp [hx]⟩
    · exact ⟨List.mem_cons_of_mem _ (ih h).1, List.mem_cons_of_mem _ (ih h).2⟩

theorem prevIn_mem {L : List Nat} {a b : Nat} (h : prevIn L a = some b) : b ∈ L ∧ a ∈ L := by
  induction L with
  | nil => simp [prevIn] at h
  | cons x M ih =>
    simp only [prevIn] at h
    split_ifs at h with hx
    · simp only [Option.some.injEq] at h
      exact ⟨by simp [h], List.mem_cons_of_mem _ (head?_mem hx)⟩
    · exact ⟨List.mem_cons_of_mem _ (ih h).1, List.mem_cons_of_mem _ (ih h).2⟩

theorem nextIn_of_not_mem {L : List Nat} {a : Nat} (h : a ∉ L) : nextIn L a = none := by
  cases hn : nextIn L a with
  | none => rfl
  | some b => exact absurd (nextIn_mem hn).2 h

theorem prevIn_of_not_mem {L : List Nat} {a : Nat} (h : a ∉ L) : prevIn L a = none := by
  cases hn : prevIn L a with
  | none => rfl
  | some b => exact absurd (prevIn_mem hn).2 h

theorem nextIn_iff_prevIn {L : List Nat} (hL : L.Nodup) {a b : Nat} :
    nextIn L a = some b ↔ prevIn L b = some a := by
  induction L with
  | nil => simp [nextIn, prevIn]
  | cons x M ih =>
    have hx : x ∉ M := (List.nodup_cons.1 hL).1
    have hM : M.Nodup := (List.nodup_cons.1 hL).2
    simp only [nextIn, prevIn]
    by_cases hxa : x = a
    · subst hxa
      rw [if_pos rfl]
      by_cases hb : M.head? = some b
      · simp [hb]
      · rw [if_neg hb]
        constructor
        · intro h
          exact absurd h hb
        · intro h
          exact absurd ((ih hM).2 h |> nextIn_mem).2 hx
    · rw [if_neg hxa]
      by_cases hb : M.head? = some b
      · rw [if_pos hb]
        constructor
        · intro h
          have h1 := (ih hM).1 h
          cases M with
          | nil => simp at hb
          | cons y M2 =>
            simp only [List.head?_cons, Option.some.injEq] at hb
            subst hb
            simp only [prevIn] at h1
            split_ifs at h1 with hy
            · have := head?_mem hy
              exact absurd this (List.nodup_cons.1 hM).1
            · exact absurd (prevIn_mem h1).2 (List.nodup_cons.1 hM).1
        · intro h
          simp only [Option.some.injEq] at h
          exact absurd h hxa
      · rw [if_neg hb]
        exact ih hM

theorem nextIn_ne {L : List Nat} (hL : L.Nodup) {a b : Nat} (h : nextIn L a = some b) : b ≠ a := by
  induction L with
  | nil => simp [nextIn] at h
  | cons x M ih =>
    have hx : x ∉ M := (List.nodup_cons.1 hL).1
    simp only [nextIn] at h
    split_ifs at h with hxa
    · rintro rfl
      exact hx (hxa ▸ head?_mem h)
    · exact ih (List.nodup_cons.1 hL).2 h

theorem prevIn_ne {L : List Nat} (hL : L.Nodup) {a b : Nat} (h : prevIn L a = some b) : b ≠ a :=
  fun e => nextIn_ne hL ((nextIn_iff_prevIn hL).2 h) e.symm

theorem prevIn_eq_none_iff {L : List Nat} (hL : L.Nodup) {a : Nat} (ha : a ∈ L) :
    prevIn L a = none ↔ L.head? = some a := by
  induction L with
  | nil => simp at ha
  | cons x M ih =>
    have hx : x ∉ M := (List.nodup_cons.1 hL).1
    have hM : M.Nodup := (List.nodup_cons.1 hL).2
    simp only [prevIn, List.head?_cons, Option.some.injEq]
    by_cases hh : M.head? = some a
    · rw [if_pos hh]
      constructor
      · intro h
        cases h
      · rintro rfl
        exact absurd (head?_mem hh) hx
    · rw [if_neg hh]
      by_cases hxa : x = a
      · subst hxa
        simp [prevIn_of_not_mem hx]
      · have haM : a ∈ M := by
          rcases List.mem_cons.1 ha with h | h
          · exact absurd h.symm hxa
          · exact h
        rw [ih hM haM]
        simp [hh, hxa]

theorem nextIn_eq_none_iff {L : List Nat} (hL : L.Nodup) {a : Nat} (ha : a ∈ L) :
    nextIn L a = none ↔ L.getLast? = some a := by
  induction L with
  | nil => simp at ha
  | cons x M ih =>
    have hx : x ∉ M := (List.nodup_cons.1 hL).1
    have hM : M.Nodup := (List.nodup_cons.1 hL).2
    simp only [nextIn]
    by_cases hxa : x = a
    · subst hxa
      rw [if_pos rfl]
      cases M with
      | nil => simp
      | cons y M2 =>
        simp only [List.head?_cons, List.getLast?_cons_cons]
        constructor
        · intro h
          cases h
        · intro h
          exact absurd (List.mem_of_getLast?_eq_some h) hx
    · rw [if_neg hxa]
      have haM : a ∈ M := by
        rcases List.mem_cons.1 ha with h | h
        · exact absurd h.symm hxa
        · exact h
      rw [ih hM haM]
      cases M with
      | nil => simp at haM
      | cons y M2 => simp [List.getLast?_cons_cons]

theorem head?_erase {L : List Nat} (hL : L.Nodup) (x : Nat) :
    (L.erase x).head? = if L.head? = some x then nextIn L x else L.head? := by
  cases L with
  | nil => simp
  | cons y M =>
    by_cases hy : y = x
    · subst hy
      simp [nextIn]
    · have : (y == x) = false := by simpa using hy
      simp [List.erase_cons, this, hy]

theorem nextIn_erase {L : List Nat} (hL : L.Nodup) {x a : Nat} (hax : a ≠ x) :
    nextIn (L.erase x) a = if nextIn L a = some x then nextIn L x else nextIn L a := by
  induction L with
  | nil => simp [nextIn]
  | cons y M ih =>
    have hy : y ∉ M := (List.nodup_cons.1 hL).1
    have hM : M.Nodup := (List.nodup_cons.1 hL).2
    by_cases hyx : y = x
    · subst hyx
      have h1 : nextIn M a ≠ some y := fun h => hy (nextIn_mem h).1
      simp [nextIn, Ne.symm hax, h1]
    · have hb : (y == x) = false := by simpa using hyx
      simp only [List.erase_cons, hb, nextIn, if_neg hyx]
      by_cases hya : y = a
      · simp only [if_pos hya, Bool.false_eq_true, if_false]
        exact head?_erase hM x
      · simp only [if_neg hya, Bool.false_eq_true, if_false]
        exact ih hM

theorem prevIn_erase {L : List Nat} (hL : L.Nodup) {x a : Nat} (hax : a ≠ x) :
    prevIn (L.erase x) a = if prevIn L a = some x then prevIn L x else prevIn L a := by
  induction L with
  | nil => simp [prevIn]
  | cons y M ih =>
    have hy : y ∉ M := (List.nodup_cons.1 hL).1
    have hM : M.Nodup := (List.nodup_cons.1 hL).2
    by_cases hyx : y = x
    · subst hyx
      -- the erased element is the first one
      have hMy : M.head? ≠ some y := fun h => hy (head?_mem h)
      by_cases hh : M.head? = some a
      · have : prevIn M a = none := (prevIn_eq_none_iff hM (head?_mem hh)).2 hh
        simp [prevIn, hh, hMy, prevIn_of_not_mem hy, this, hax, Ne.symm hax]
      · have : prevIn M a ≠ some y := fun h => hy (prevIn_mem h).1
        simp [prevIn, hh, this, hax, Ne.symm hax]
    · have hb : (y == x) = false := by simpa using hyx
      simp only [List.erase_cons, hb, prevIn, Bool.false_eq_true, if_false]
      rw [head?_erase hM x]
      by_cases hhx : M.head? = some x
      · -- the erased element is the second one
        have hha : M.head? ≠ some a := by
          rw [hhx]
          intro h
          exact hax (Option.some.inj h).symm
        by_cases hn : nextIn M x = some a
        · have : prevIn M a = some x := (nextIn_iff_prevIn hM).1 hn
          simp [hhx, hha, hn, this, hax, Ne.symm hax]
        · have h1 : prevIn M a ≠ some x := fun h => hn ((nextIn_iff_prevIn hM).2 h)
          simp [hhx, hha, hn, h1, ih hM, hax, Ne.symm hax]
      · by_cases hha : M.head? = some a
        · simp [hhx, hha, hyx, hax, Ne.symm hax]
        · by_cases h1 : prevIn M a = some x
          · simp [hhx, hha, h1, ih hM, hax, Ne.symm hax]
          · simp [hhx, hha, h1, ih hM, hax, Ne.symm hax]

theorem nextIn_cons (b : Nat) (L : List Nat) (a : Nat) :
    nextIn (b :: L) a = if b = a then L.head? else nextIn L a := rfl

theorem prevIn_cons (b : Nat) (L : List Nat) (a : Nat) :
    prevIn (b :: L) a = if L.head? = some a then some b else prevIn L a := rfl

theorem nextIn_concat {M : List Nat} (hM : M.Nodup) {h : Nat} (hh : h ∉ M) (a : Nat) :
    nextIn (M ++ [h]) a =
      if a = h then none else if M.getLast? = some a then some h else nextIn M a := by
  induction M with
  | nil =>
    by_cases hah : a = h
    · simp [nextIn, hah]
    · simp [nextIn, hah, Ne.symm hah]
  | cons y M ih =>
    have hy : y ∉ M := (List.nodup_cons.1 hM).1
    have hM2 : M.Nodup := (List.nodup_cons.1 hM).2
    have hyh : y ≠ h := fun e => hh (by simp [e])
    have hhM : h ∉ M := fun e => hh (List.mem_cons_of_mem _ e)
    by_cases hya : y = a
    · subst hya
      cases M with
      | nil => simp [nextIn, hyh]
      | cons z M2 =>
        have hl : (z :: M2).getLast? ≠ some y := fun e => hy (List.mem_of_getLast?_eq_some e)
        simp [nextIn, hyh, hl]
    · rw [List.cons_append, nextIn_cons, if_neg hya, nextIn_cons, if_neg hya, ih hM2 hhM]
      cases M with
      | nil => simp [hya]
      | cons z M2 => rw [List.getLast?_cons_cons]

theorem prevIn_concat {M : List Nat} (hM : M.Nodup) {h : Nat} (hh : h ∉ M) (a : Nat) :
    prevIn (M ++ [h]) a = if a = h then M.getLast? else prevIn M a := by
  induction M with
  | nil =>
    by_cases hah : a = h
    · simp [prevIn, hah]
    · simp [prevIn, hah]
  | cons y M ih =>
    have hy : y ∉ M := (List.nodup_cons.1 hM).1
    have hM2 : M.Nodup := (List.nodup_cons.1 hM).2
    have hyh : y ≠ h := fun e => hh (by simp [e])
    have hhM : h ∉ M := fun e => hh (List.mem_cons_of_mem _ e)
    have e := ih hM2 hhM
    cases M with
    | nil =>
      by_cases hah : a = h
      · simp [prevIn, hah]
      · simp [prevIn, hah, Ne.symm hah]
    | cons z M2 =>
      have hz : z ≠ h := fun e => hh (by simp [e])
      rw [List.cons_append, prevIn_cons, e, prevIn_cons (L := z :: M2), List.getLast?_cons_cons]
      simp only [List.cons_append, List.head?_cons, Option.some.injEq]
      by_cases hza : z = a
      · have hah : a ≠ h := hza ▸ hz
        simp [hza, hah]
      · by_cases hah : a = h
        · subst hah
          simp [hza, hz]
        · simp [hza, hah]

theorem nextIn_append_cons {L0 L1 : List Nat} {a : Nat} (hL : (L0 ++ a :: L1).Nodup) :
    nextIn (L0 ++ a :: L1) a = L1.head? := by
  induction L0 with
  | nil => simp [nextIn]
  | cons y M ih =>
    have hy : y ∉ M ++ a :: L1 := (List.nodup_cons.1 hL).1
    have hya : y ≠ a := fun e => hy (by simp [e])
    simp only [List.cons_append, nextIn, if_neg hya]
    exact ih (List.nodup_cons.1 hL).2

/-! ## Effect of the list operations -/

/-- What `unlink` writes: the two neighbours of `x` are linked to each other, nothing else
changes. -/
theorem unlink_eq {l : block_list} {x : Nat} {bx : block_block} (hx : l.heap x = some bx)
    (hq : ∀ q, bx.prev = some q → q ≠ x ∧ ∃ bq, l.heap q = some bq)
    (hn : ∀ n, bx.next = some n → n ≠ x ∧ bx.prev ≠ some n ∧ ∃ bn, l.heap n = some bn) :
    ∃ l1, l.unlink x = some l1 ∧ l1.head = l.head ∧ l1.tail = l.tail ∧ l1.brk = l.brk ∧
      l1.refcount = l.refcount ∧
      ∀ a, l1.heap a =
        if bx.next = some a then (l.heap a).map (fun b => { b with prev := bx.prev })
        else if bx.prev = some a then (l.heap a).map (fun b => { b with next := bx.next })
        else l.heap a := by
  rcases hp : bx.prev with _ | q <;> rcases hnx : bx.next with _ | n
  · refine ⟨l, ?_, rfl, rfl, rfl, rfl, ?_⟩
    · simp [block_list.unlink, hx, hp, hnx]
    · intro a
      simp
  · obtain ⟨hnx1, -, bn, hbn⟩ := hn n hnx
    refine ⟨l.store n { bn with prev := none }, ?_, rfl, rfl, rfl, rfl, ?_⟩
    · simp [block_list.unlink, hx, hp, hnx, hbn]
    · intro a
      by_cases han : a = n
      · subst han
        simp [block_list.store, hbn]
      · have : n ≠ a := fun e => han e.symm
        simp [block_list.store, Function.update_apply, han, this]
  · obtain ⟨hqx, bq, hbq⟩ := hq q hp
    refine ⟨l.store q { bq with next := none }, ?_, rfl, rfl, rfl, rfl, ?_⟩
    · simp [block_list.unlink, hx, hp, hnx, hbq, block_list.store, Function.update_apply,
        Ne.symm hqx]
    · intro a
      by_cases haq : a = q
      · subst haq
        simp [block_list.store, hbq]
      · have : q ≠ a := fun e => haq e.symm
        simp [block_list.store, Function.update_apply, haq, this]
  · obtain ⟨hqx, bq, hbq⟩ := hq q hp
    obtain ⟨hnx1, hqn, bn, hbn⟩ := hn n hnx
    have hqn : q ≠ n := by
      intro e
      exact hqn (by rw [hp, e])
    refine ⟨(l.store q { bq with next := some n }).store n { bn with prev := some q },
      ?_, rfl, rfl, rfl, rfl, ?_⟩
    · simp [block_list.unlink, hx, hp, hnx, hbq, hbn, block_list.store, Function.update_apply,
        Ne.symm hqx, Ne.symm hqn]
    · intro a
      by_cases han : a = n
      · subst han
        simp [block_list.store, hbn]
      · have h1 : n ≠ a := fun e => han e.symm
        by_cases haq : a = q
        · subst haq
          simp [block_list.store, Function.update_apply, hbq, han, h1]
        · have h2 : q ≠ a := fun e => haq e.symm
          simp [block_list.store, Function.update_apply, han, h1, haq, h2]

theorem nextIn_prevIn_ne {L : List Nat} (hL : L.Nodup) {x n : Nat} (h : nextIn L x = some n) :
    prevIn L x ≠ some n := by
  induction L with
  | nil => simp [nextIn] at h
  | cons y M ih =>
    have hy : y ∉ M := (List.nodup_cons.1 hL).1
    have hM : M.Nodup := (List.nodup_cons.1 hL).2
    rw [nextIn_cons] at h
    rw [prevIn_cons]
    by_cases hyx : y = x
    · subst hyx
      have h1 : M.head? ≠ some y := fun e => hy (head?_mem e)
      rw [if_neg h1, prevIn_of_not_mem hy]
      simp
    · rw [if_neg hyx] at h
      by_cases hh : M.head? = some x
      · rw [if_pos hh]
        intro e
        have : y = n := Option.some.inj e
        exact hy (this ▸ (nextIn_mem h).1)
      · rw [if_neg hh]
        exact ih hM h

theorem Chain.cell_of_mem {l : block_list} {L : List Nat} {σ : Nat → Nat} (h : Chain l L σ)
    {a : Nat} (ha : a ∈ L) : l.heap a = some ⟨prevIn L a, nextIn L a, σ a⟩ := by
  rw [h.cell a, if_pos ha]

/-- After `unlink` the slabs other than `x` form the list without `x`; `x` keeps its links. -/
theorem Chain.unlink {l : block_list} {L : List Nat} {σ : Nat → Nat} (h : Chain l L σ)
    {x : Nat} (hx : x ∈ L) :
    ∃ l1, l.unlink x = some l1 ∧ l1.head = l.head ∧ l1.tail = l.tail ∧ l1.brk = l.brk ∧
      l1.refcount = l.refcount ∧
      ∀ a, l1.heap a =
        if a = x then some ⟨prevIn L x, nextIn L x, σ x⟩
        else if a ∈ L.erase x then some ⟨prevIn (L.erase x) a, nextIn (L.erase x) a, σ a⟩
        else none := by
  have hL := h.nodup
  obtain ⟨l1, h1, hh, ht, hb, hr, hcell⟩ := unlink_eq (h.cell_of_mem hx)
    (fun q hq => ⟨prevIn_ne hL hq, _, h.cell_of_mem (prevIn_mem hq).1⟩)
    (fun n hn => ⟨nextIn_ne hL hn, nextIn_prevIn_ne hL hn, _, h.cell_of_mem (nextIn_mem hn).1⟩)
  refine ⟨l1, h1, hh, ht, hb, hr, ?_⟩
  intro a
  rw [hcell a]
  simp only
  by_cases hax : a = x
  · subst hax
    have e1 : nextIn L a ≠ some a := fun e => nextIn_ne hL e rfl
    have e2 : prevIn L a ≠ some a := fun e => prevIn_ne hL e rfl
    rw [if_neg e1, if_neg e2, if_pos rfl, h.cell_of_mem hx]
  · have hmem : a ∈ L → a ∈ L.erase x := fun ha => (List.Nodup.mem_erase_iff hL).2 ⟨hax, ha⟩
    have hmem2 : a ∉ L → a ∉ L.erase x := fun ha e => ha (List.mem_of_mem_erase e)
    rw [if_neg hax, nextIn_erase hL hax, prevIn_erase hL hax]
    by_cases hn : nextIn L x = some a
    · have ha : a ∈ L := (nextIn_mem hn).1
      have e1 : prevIn L a = some x := (nextIn_iff_prevIn hL).1 hn
      have e2 : nextIn L a ≠ some x := fun e => nextIn_prevIn_ne hL e e1
      rw [if_pos hn, h.cell_of_mem ha, if_pos (hmem ha), if_pos e1, if_neg e2]
      rfl
    · rw [if_neg hn]
      have e1 : prevIn L a ≠ some x := fun e => hn ((nextIn_iff_prevIn hL).2 e)
      by_cases hp : prevIn L x = some a
      · have ha : a ∈ L := (prevIn_mem hp).1
        have e2 : nextIn L a = some x := (nextIn_iff_prevIn hL).2 hp
        rw [if_pos hp, h.cell_of_mem ha, if_pos (hmem ha), if_pos e2, if_neg e1]
        rfl
      · rw [if_neg hp]
        have e2 : nextIn L a ≠ some x := fun e => hp ((nextIn_iff_prevIn hL).1 e)
        rw [h.cell a, if_neg e1, if_neg e2]
        by_cases ha : a ∈ L
        · rw [if_pos ha, if_pos (hmem ha)]
        · rw [if_neg ha, if_neg (hmem2 ha)]

theorem Chain.store_slots {l : block_list} {L : List Nat} {σ : Nat → Nat} (h : Chain l L σ)
    {x : Nat} (hx : x ∈ L) (s : Nat) :
    Chain (l.store x ⟨prevIn L x, nextIn L x, s⟩) L (Function.update σ x s) := by
  refine ⟨h.nodup, h.head, ?_⟩
  intro a
  by_cases hax : a = x
  · subst hax
    simp [block_list.store, hx]
  · simp [block_list.store, Function.update_apply, hax, h.cell a]

/-- The detach branch removes `x` from the list and releases it. -/
theorem Chain.detach {l : block_list} {L : List Nat} {σ : Nat → Nat} (h : Chain l L σ)
    {x : Nat} (hx : x ∈ L) :
    ∃ l1, l.detach x = some l1 ∧ l1.brk = l.brk ∧ l1.refcount = l.refcount ∧
      l1.tail = (if l.tail = some x then prevIn L x else l.tail) ∧
      Chain l1 (L.erase x) σ := by
  have hL := h.nodup
  obtain ⟨l3, h3, hh, ht, hb, hr, hcell⟩ := h.unlink hx
  have hx3 : l3.heap x = some ⟨prevIn L x, nextIn L x, σ x⟩ := by rw [hcell x, if_pos rfl]
  refine ⟨{ refcount := l3.refcount, heap := Function.update l3.heap x none, brk := l3.brk,
            head := if l3.head = some x then nextIn L x else l3.head,
            tail := if l3.tail = some x then prevIn L x else l3.tail }, ?_, hb, hr, ?_, ?_⟩
  · simp only [block_list.detach, h3, Option.bind_eq_bind, Option.some_bind, hx3]
    by_cases h1 : l3.head = some x <;> by_cases h2 : l3.tail = some x <;>
      simp [h1, h2, hx3, block_list._free]
  · simp only [ht]
  · refine ⟨hL.erase x, ?_, ?_⟩
    · rw [head?_erase hL, ← h.head, ← hh]
    · intro a
      by_cases hax : a = x
      · subst hax
        have : a ∉ L.erase a := fun e => ((List.Nodup.mem_erase_iff hL).1 e).1 rfl
        simp [this]
      · simp [Function.update_apply, hax, hcell a]

/-- The move-to-head branch makes `x` the first slab of the list; it leaves `tail` as it is. -/
theorem Chain.tohead {l : block_list} {L : List Nat} {σ : Nat → Nat} (h : Chain l L σ)
    {x : Nat} (hx : x ∈ L) (hne : l.head ≠ some x) :
    ∃ l1, l.tohead x = some l1 ∧ l1.brk = l.brk ∧ l1.refcount = l.refcount ∧
      l1.tail = l.tail ∧ Chain l1 (x :: L.erase x) σ := by
  have hL := h.nodup
  obtain ⟨l3, h3, hh, ht, hb, hr, hcell⟩ := h.unlink hx
  have hx3 : l3.heap x = some ⟨prevIn L x, nextIn L x, σ x⟩ := by rw [hcell x, if_pos rfl]
  obtain ⟨y, hy⟩ : ∃ y, L.head? = some y := by
    cases L with
    | nil => simp at hx
    | cons y M => exact ⟨y, rfl⟩
  have hyx : y ≠ x := by
    rintro rfl
    exact hne (h.head.trans hy)
  have hyE : y ∈ L.erase x := (List.Nodup.mem_erase_iff hL).2 ⟨hyx, head?_mem hy⟩
  have hxE : x ∉ L.erase x := fun e => ((List.Nodup.mem_erase_iff hL).1 e).1 rfl
  have hEh : (L.erase x).head? = some y := by
    rw [head?_erase hL, hy, if_neg]
    intro e
    exact hyx (Option.some.inj e)
  have hy3 : l3.heap y = some ⟨prevIn (L.erase x) y, nextIn (L.erase x) y, σ y⟩ := by
    rw [hcell y, if_neg hyx, if_pos hyE]
  have hh3 : l3.head = some y := by rw [hh, h.head, hy]
  refine ⟨{ refcount := l3.refcount,
            heap := Function.update (Function.update l3.heap x (some ⟨none, some y, σ x⟩)) y
              (some ⟨some x, nextIn (L.erase x) y, σ y⟩),
            brk := l3.brk, head := some x, tail := l3.tail }, ?_, hb, hr, ht, ?_⟩
  · simp [block_list.tohead, h3, hx3, hh3, hy3, block_list.store, Function.update_apply, hyx]
  · refine ⟨List.nodup_cons.2 ⟨hxE, hL.erase x⟩, rfl, ?_⟩
    intro a
    simp only [nextIn_cons, prevIn_cons, hEh]
    by_cases hay : a = y
    · subst hay
      simp [hyE, Ne.symm hyx]
    · by_cases hax : a = x
      · subst hax
        simp [Function.update_apply, hay, Ne.symm hay, prevIn_of_not_mem hxE]
      · have e1 : ¬ (some y = some a) := fun e => hay (Option.some.inj e).symm
        simp [Function.update_apply, hay, hax, Ne.symm hax, hcell a, e1]

/-- The body of `deallocate` clears the slot and either removes the slab (when it became empty
and is not the embedded one) or keeps the same set of slabs. -/
theorem Chain.settle {l : block_list} {L : List Nat} {σ : Nat → Nat} (h : Chain l L σ)
    {x : Nat} (hx : x ∈ L) (c : Params) (i : Nat) :
    ∃ l1 L1, l.settle c ⟨x, i⟩ x = some l1 ∧ l1.brk = l.brk ∧ l1.refcount = l.refcount ∧
      Chain l1 L1 (Function.update σ x (σ x &&& mnot c (bit c i))) ∧
      (if σ x &&& mnot c (bit c i) = 0 ∧ x ≠ block_list.block then L1 = L.erase x
        else ∀ a, a ∈ L1 ↔ a ∈ L) := by
  have hL := h.nodup
  have h2 := h.store_slots hx (σ x &&& mnot c (bit c i))
  have hsx : Function.update σ x (σ x &&& mnot c (bit c i)) x = σ x &&& mnot c (bit c i) := by
    simp
  have e : l.settle c ⟨x, i⟩ x =
      if (σ x &&& mnot c (bit c i) = 0) ∧ x ≠ block_list.block then
        (l.store x ⟨prevIn L x, nextIn L x, σ x &&& mnot c (bit c i)⟩).detach x
      else if block_block.hasroom c ⟨prevIn L x, nextIn L x, σ x⟩ = false ∧ l.head ≠ some x then
        (l.store x ⟨prevIn L x, nextIn L x, σ x &&& mnot c (bit c i)⟩).tohead x
      else some (l.store x ⟨prevIn L x, nextIn L x, σ x &&& mnot c (bit c i)⟩) := by
    simp only [block_list.settle, h.cell_of_mem hx, Option.bind_eq_bind, Option.some_bind,
      block_block.deallocate, block_list.store, Function.update_same, block_block.isempty,
      Option.pure_def]
    by_cases h1 : σ x &&& mnot c (bit c i) = 0 <;> by_cases h2 : x = block_list.block <;>
      by_cases h3 : block_block.hasroom c ⟨prevIn L x, nextIn L x, σ x⟩ = true <;>
      by_cases h4 : l.head = some x <;> simp [h1, h2, h3, h4]
  rw [e]
  by_cases h1 : σ x &&& mnot c (bit c i) = 0 ∧ x ≠ block_list.block
  · rw [if_pos h1]
    obtain ⟨l1, hd, hb, hr, -, hch⟩ := h2.detach hx
    exact ⟨l1, L.erase x, hd, hb, hr, hch, by rw [if_pos h1]⟩
  · rw [if_neg h1]
    by_cases h3 : block_block.hasroom c ⟨prevIn L x, nextIn L x, σ x⟩ = false ∧ l.head ≠ some x
    · rw [if_pos h3]
      obtain ⟨l1, hd, hb, hr, -, hch⟩ := h2.tohead hx h3.2
      refine ⟨l1, x :: L.erase x, hd, hb, hr, hch, ?_⟩
      rw [if_neg h1]
      intro a
      exact (List.perm_cons_erase hx).symm.mem_iff
    · rw [if_neg h3]
      exact ⟨_, L, rfl, rfl, rfl, h2, by rw [if_neg h1]; intro a; rfl⟩

/-- Following `next` from `head` visits the slabs of the list in order. -/
theorem Chain.walk {l : block_list} {L : List Nat} {σ : Nat → Nat} (h : Chain l L σ) :
    ∀ (L1 L0 : List Nat) (n : Nat), L = L0 ++ L1 → L1.length ≤ n →
      l.walk n L1.head? = some (L1.map fun a => (a, σ a)) := by
  intro L1
  induction L1 with
  | nil =>
    intro L0 n _ _
    cases n <;> simp [block_list.walk]
  | cons a L2 ih =>
    intro L0 n hL hn
    cases n with
    | zero => simp at hn
    | succ n =>
      have hnd : (L0 ++ a :: L2).Nodup := hL ▸ h.nodup
      have ha : a ∈ L := by rw [hL]; simp
      have hnext : nextIn L a = L2.head? := by rw [hL]; exact nextIn_append_cons hnd
      simp only [List.head?_cons, block_list.walk, h.cell_of_mem ha, hnext,
        ih (L0 ++ [a]) n (by rw [hL]; simp) (by simpa using hn), Option.map_some', List.map_cons]

theorem length_le_of_nodup_of_lt {L : List Nat} (hL : L.Nodup) {n : Nat}
    (h : ∀ a ∈ L, a < n) : L.length ≤ n := by
  have hs : L ⊆ List.range n := fun a ha => List.mem_range.2 (h a ha)
  have := (List.subperm_of_subset hL hs).length_le
  simpa using this

/-! ## The arena invariant -/

/-- A freshly constructed arena is in order. -/
theorem Inv.new (c : Params) : Inv c block_list.new [] [block_list.block] (fun _ => 0) := by
  refine ⟨⟨by simp, rfl, ?_⟩, by simp, ?_, ?_, ?_, ?_, List.nodup_nil⟩
  · intro a
    by_cases ha : a = block_list.block
    · subst ha
      simp [block_list.new, block_block.new, nextIn, prevIn]
    · simp [block_list.new, ha]
  · intro a ha
    simp only [List.mem_singleton] at ha
    simp [ha, block_list.new, block_list.block]
  · intro a _
    exact (Rep.zero c).congr (fun i _ => by simp)
  · intro p hp
    simp at hp
  · intro a ha hne
    simp only [List.mem_singleton] at ha
    exact absurd ha hne

/-- Moving a filled `head` behind a correct `tail` rotates the list. -/
theorem Chain.demote {l : block_list} {y m : Nat} {M : List Nat} {σ : Nat → Nat}
    (h : Chain l (y :: m :: M) σ) (ht : l.tail = (y :: m :: M).getLast?) :
    ∃ l1, l.demote = some l1 ∧ l1.brk = l.brk ∧ l1.refcount = l.refcount ∧
      l1.tail = (m :: M ++ [y]).getLast? ∧ Chain l1 (m :: M ++ [y]) σ := by
  have hL := h.nodup
  have hyM : y ∉ m :: M := (List.nodup_cons.1 hL).1
  have hM : (m :: M).Nodup := (List.nodup_cons.1 hL).2
  obtain ⟨t, hlast⟩ : ∃ t, (m :: M).getLast? = some t :=
    ⟨(m :: M).getLast (by simp), List.getLast?_eq_getLast _ _⟩
  have htM : t ∈ m :: M := List.mem_of_getLast?_eq_some hlast
  have hty : t ≠ y := fun e => hyM (e ▸ htM)
  have hmy : m ≠ y := fun e => hyM (by simp [e])
  have htail : l.tail = some t := by rw [ht, List.getLast?_cons_cons, hlast]
  have hhead : l.head = some y := h.head
  have hcy := h.cell_of_mem (List.mem_cons_self y _)
  have hct := h.cell_of_mem (List.mem_cons_of_mem y htM)
  have hcm := h.cell_of_mem (show m ∈ y :: m :: M by simp)
  have hny : nextIn (y :: m :: M) y = some m := by simp [nextIn]
  have hpm : prevIn (y :: m :: M) m = some y := by simp [prevIn]
  refine ⟨{ refcount := l.refcount,
            heap := Function.update (Function.update (Function.update l.heap t
                (some ⟨prevIn (y :: m :: M) t, some y, σ t⟩)) y (some ⟨some t, none, σ y⟩)) m
                (some ⟨none, if m = t then some y else nextIn (y :: m :: M) m, σ m⟩),
            brk := l.brk, head := some m, tail := some y }, ?_, rfl, rfl, ?_, ?_⟩
  · by_cases hmt : m = t
    · subst hmt
      simp [block_list.demote, htail, hhead, hct, hcy, hny, block_list.store,
        Function.update_apply, hmy, Ne.symm hmy]
    · simp [block_list.demote, htail, hhead, hct, hcy, hcm, hny, hpm, block_list.store,
        Function.update_apply, hmy, Ne.symm hmy, hty, Ne.symm hty, hmt, Ne.symm hmt]
  · exact (List.getLast?_concat _).symm
  · refine ⟨?_, rfl, ?_⟩
    · exact List.Nodup.append hM (by simp) (by simpa using hyM)
    · intro a
      rw [nextIn_concat hM hyM, prevIn_concat hM hyM, hlast]
      have hmemc : a ∈ m :: M ++ [y] ↔ a ∈ y :: m :: M := by
        simp only [List.mem_append, List.mem_cons, List.mem_singleton, List.not_mem_nil, or_false]
        tauto
      have hcell := h.cell a
      rw [nextIn_cons, prevIn_cons] at hcell
      by_cases ham : a = m
      · subst ham
        have e1 : prevIn (a :: M) a = none := (prevIn_eq_none_iff hM (by simp)).2 rfl
        have e2 : nextIn (y :: a :: M) a = nextIn (a :: M) a := by
          rw [nextIn_cons, if_neg (Ne.symm hmy)]
        by_cases hat : a = t
        · subst hat
          simp [hmy, e1]
        · have : ¬ (some t = some a) := fun e => hat (Option.some.inj e).symm
          simp [hmy, e1, e2, hat, this]
      · have hma : ¬ ((m :: M).head? = some a) := by
          simp only [List.head?_cons, Option.some.injEq]
          exact fun e => ham e.symm
        rw [if_neg hma] at hcell
        by_cases hay : a = y
        · subst hay
          simp [Function.update_apply, ham]
        · have hya : ¬ y = a := fun e => hay e.symm
          rw [if_neg hya] at hcell
          by_cases hat : a = t
          · subst hat
            have e3 : prevIn (y :: m :: M) a = prevIn (m :: M) a := by
              rw [prevIn_cons, if_neg hma]
            have haM : a ∈ M := by
              rcases List.mem_cons.1 htM with e | e
              · exact absurd e ham
              · exact e
            simp [Function.update_apply, ham, hay, e3, haM]
          · have : ¬ (some t = some a) := fun e => hat (Option.some.inj e).symm
            simp only [Function.update_apply, if_neg ham, if_neg hay, if_neg hat, hcell,
              if_neg this]
            by_cases hmem : a ∈ y :: m :: M
            · rw [if_pos hmem, if_pos (hmemc.2 hmem)]
            · rw [if_neg hmem, if_neg (fun e => hmem (hmemc.1 e))]

/-- Allocation from a head slab with room, `tail` being the last slab of the list. -/
theorem Chain.take {c : Params} (hc : c.Valid) {l : block_list} {y : Nat} {M : List Nat}
    {σ : Nat → Nat} (h : Chain l (y :: M) σ) (ht : l.tail = (y :: M).getLast?)
    {S : Nat → Prop} (hS : Rep c (σ y) S)
    (hroom : block_block.hasroom c ⟨prevIn (y :: M) y, nextIn (y :: M) y, σ y⟩ = true) :
    ∃ i l1 L1, l.take c = some (some ⟨y, i⟩, l1) ∧ i < c.N ∧ ¬ S i ∧
      l1.brk = l.brk ∧ l1.refcount = l.refcount ∧
      Chain l1 L1 (Function.update σ y (σ y ||| bit c i)) ∧ l1.tail = L1.getLast? ∧
      (∀ a, a ∈ L1 ↔ a ∈ y :: M) := by
  have hy : y ∈ y :: M := List.mem_cons_self y M
  obtain ⟨i, hal, hi, hSi, -⟩ :=
    Rep.slab_allocate hc (b := ⟨prevIn (y :: M) y, nextIn (y :: M) y, σ y⟩) hS hroom
  have h2 := h.store_slots hy (σ y ||| bit c i)
  have e : l.take c =
      if block_block.hasroom c ⟨prevIn (y :: M) y, nextIn (y :: M) y, σ y ||| bit c i⟩ = false ∧
          l.head ≠ l.tail then
        ((l.store y ⟨prevIn (y :: M) y, nextIn (y :: M) y, σ y ||| bit c i⟩).demote).map
          (fun l1 => (some ⟨y, i⟩, l1))
      else some (some ⟨y, i⟩, l.store y ⟨prevIn (y :: M) y, nextIn (y :: M) y, σ y ||| bit c i⟩) := by
    have hh : l.head = some y := h.head
    simp only [block_list.take, hh, h.cell_of_mem hy, Option.bind_eq_bind, Option.some_bind, hal,
      block_list.store, Function.update_same, Option.pure_def, Option.map_some']
    by_cases h1 : block_block.hasroom c
        ⟨prevIn (y :: M) y, nextIn (y :: M) y, σ y ||| bit c i⟩ = true <;>
      by_cases h2 : some y = l.tail <;> simp [h1, h2, Option.map, Option.bind]
    · cases hd : block_list.demote _ <;> rfl
  refine ⟨i, ?_⟩
  rw [e]
  by_cases hcond : block_block.hasroom c
      ⟨prevIn (y :: M) y, nextIn (y :: M) y, σ y ||| bit c i⟩ = false ∧ l.head ≠ l.tail
  · rw [if_pos hcond]
    cases M with
    | nil =>
      exfalso
      apply hcond.2
      rw [ht, h.head]
      rfl
    | cons m M2 =>
      obtain ⟨l1, hd, hb, hr, htl, hch⟩ := h2.demote ht
      refine ⟨l1, m :: M2 ++ [y], by rw [hd]; rfl, hi, hSi, hb, hr, hch, htl, ?_⟩
      intro a
      simp only [List.mem_append, List.mem_cons, List.mem_singleton, List.not_mem_nil, or_false]
      tauto
  · rw [if_neg hcond]
    exact ⟨_, y :: M, rfl, hi, hSi, rfl, rfl, h2, ht, fun a => Iff.rfl⟩

/-- Allocation through a new slab, which becomes the first of the list. -/
theorem Chain.grow {c : Params} (hc : c.Valid) {l : block_list} {y : Nat} {M : List Nat}
    {σ : Nat → Nat} (h : Chain l (y :: M) σ) (hfresh : l.brk ∉ y :: M) :
    ∃ i l1, l.grow c true = some (some ⟨l.brk, i⟩, l1) ∧ i < c.N ∧
      l1.brk = l.brk + 1 ∧ l1.refcount = l.refcount ∧ l1.tail = l.tail ∧
      Chain l1 (l.brk :: y :: M) (Function.update σ l.brk (0 ||| bit c i)) := by
  have hy : y ∈ y :: M := List.mem_cons_self y M
  have hby : l.brk ≠ y := fun e => hfresh (by simp [e])
  have hroom : block_block.hasroom c ⟨none, some y, 0⟩ = true :=
    ((Rep.zero c).hasroom hc none (some y)).2 ⟨0, hc.1, fun e => e⟩
  obtain ⟨i, hal, hi, -, -⟩ := Rep.slab_allocate hc (b := ⟨none, some y, 0⟩) (Rep.zero c) hroom
  have hh : l.head = some y := h.head
  refine ⟨i, { refcount := l.refcount,
               heap := Function.update (Function.update l.heap y
                  (some ⟨some l.brk, nextIn (y :: M) y, σ y⟩)) l.brk
                  (some ⟨none, some y, 0 ||| bit c i⟩),
               brk := l.brk + 1, head := some l.brk, tail := l.tail }, ?_, hi, rfl, rfl, rfl, ?_⟩
  · simp [block_list.grow, block_list._alloc, block_list.store, block_block.new, hh,
      Function.update_apply, hby, Ne.symm hby, h.cell_of_mem hy, hal]
    funext a
    by_cases hab : a = l.brk
    · subst hab
      simp only [Function.update_same]
    · simp only [Function.update_apply, if_neg hab]
  · refine ⟨List.nodup_cons.2 ⟨hfresh, h.nodup⟩, rfl, ?_⟩
    intro a
    have hcell := h.cell a
    have en : nextIn (l.brk :: y :: M) a = if l.brk = a then some y else nextIn (y :: M) a := rfl
    have ep : prevIn (l.brk :: y :: M) a = if y = a then some l.brk else prevIn (y :: M) a := by
      rw [prevIn_cons]
      simp only [List.head?_cons, Option.some.injEq]
    rw [en, ep]
    by_cases hab : a = l.brk
    · subst hab
      have e1 : prevIn (y :: M) l.brk = none := prevIn_of_not_mem hfresh
      simp [hby, Ne.symm hby, e1]
    · have hba : ¬ l.brk = a := fun e => hab e.symm
      by_cases hay : a = y
      · subst hay
        simp [Function.update_apply, hab, hba]
      · have hya : ¬ y = a := fun e => hay e.symm
        simp [Function.update_apply, hab, hba, hay, hya, hcell]

/-- Allocating in an arena that is in order and has a correct `tail` returns a pointer that is
not live and leaves the arena in order with a correct `tail`. -/
theorem Inv.allocate_ok {c : Params} (hc : c.Valid) {l : block_list} {A : List Ptr}
    {L : List Nat} {σ : Nat → Nat} (h : Inv c l A L σ) (ht : l.tail = L.getLast?) :
    ∃ p l1 L1 σ1, l.allocate c true = .ok (some p) l1 ∧ p ∉ A ∧ Inv c l1 (p :: A) L1 σ1 ∧
      l1.tail = L1.getLast? := by
  cases L with
  | nil => exact absurd h.emb (by simp)
  | cons y M =>
    have hy : y ∈ y :: M := List.mem_cons_self y M
    have hcy := h.chain.cell_of_mem hy
    have hhead : l.head = some y := h.chain.head
    by_cases hroom : block_block.hasroom c ⟨prevIn (y :: M) y, nextIn (y :: M) y, σ y⟩ = true
    · obtain ⟨i, l1, L1, htake, hi, hSi, hb, -, hch, htl, hmem⟩ :=
        h.chain.take hc ht (h.rep y hy) hroom
      refine ⟨⟨y, i⟩, l1, L1, Function.update σ y (σ y ||| bit c i), ?_, hSi, ?_, htl⟩
      · simp only [block_list.allocate, hhead, Option.some_bind, hcy, hroom, if_true, htake]
      · refine ⟨hch, (hmem _).2 h.emb, ?_, ?_, ?_, ?_, List.nodup_cons.2 ⟨hSi, h.anodup⟩⟩
        · intro a ha
          rw [hb]
          exact h.below a ((hmem a).1 ha)
        · intro a ha
          have haL := (hmem a).1 ha
          by_cases hay : a = y
          · subst hay
            rw [Function.update_same]
            refine ((h.rep a haL).lor_bit hi).congr ?_
            intro k _
            simp only [List.mem_cons, Ptr.mk.injEq, true_and]
            tauto
          · rw [Function.update_noteq hay]
            refine (h.rep a haL).congr ?_
            intro k _
            simp only [List.mem_cons, Ptr.mk.injEq, hay, false_and, false_or]
        · intro q hq
          rcases List.mem_cons.1 hq with e | e
          · subst e
            exact ⟨(hmem _).2 hy, hi⟩
          · exact ⟨(hmem _).2 (h.owned q e).1, (h.owned q e).2⟩
        · intro a ha hne
          obtain ⟨q, hq, hqa⟩ := h.used a ((hmem a).1 ha) hne
          exact ⟨q, List.mem_cons_of_mem _ hq, hqa⟩
    · have hfresh : l.brk ∉ y :: M := fun e => absurd (h.below _ e) (lt_irrefl _)
      obtain ⟨i, l1, hgrow, hi, hb, -, htl, hch⟩ := h.chain.grow hc hfresh
      have hpA : (⟨l.brk, i⟩ : Ptr) ∉ A := fun e => hfresh (h.owned _ e).1
      refine ⟨⟨l.brk, i⟩, l1, l.brk :: y :: M, Function.update σ l.brk (0 ||| bit c i),
        ?_, hpA, ?_, ?_⟩
      · simp only [block_list.allocate, hhead, Option.some_bind, hcy, hroom, hgrow]
        rfl
      · refine ⟨hch, List.mem_cons_of_mem _ h.emb, ?_, ?_, ?_, ?_, List.nodup_cons.2 ⟨hpA, h.anodup⟩⟩
        · intro a ha
          rw [hb]
          rcases List.mem_cons.1 ha with e | e
          · omega
          · have := h.below a e
            omega
        · intro a ha
          by_cases hab : a = l.brk
          · subst hab
            rw [Function.update_same]
            refine ((Rep.zero c).lor_bit hi).congr ?_
            intro k _
            simp only [List.mem_cons, Ptr.mk.injEq, true_and, false_or]
            constructor
            · exact fun e => Or.inl e
            · rintro (e | e)
              · exact e
              · exact absurd (h.owned _ e).1 hfresh
          · rw [Function.update_noteq hab]
            have haL : a ∈ y :: M := by
              rcases List.mem_cons.1 ha with e | e
              · exact absurd e hab
              · exact e
            refine (h.rep a haL).congr ?_
            intro k _
            simp only [List.mem_cons, Ptr.mk.injEq, hab, false_and, false_or]
        · intro q hq
          rcases List.mem_cons.1 hq with e | e
          · subst e
            exact ⟨List.mem_cons_self _ _, hi⟩
          · exact ⟨List.mem_cons_of_mem _ (h.owned q e).1, (h.owned q e).2⟩
        · intro a ha hne
          rcases List.mem_cons.1 ha with e | e
          · exact ⟨⟨l.brk, i⟩, List.mem_cons_self _ _, e.symm⟩
          · obtain ⟨q, hq, hqa⟩ := h.used a e hne
            exact ⟨q, List.mem_cons_of_mem _ hq, hqa⟩
      · rw [htl, ht, List.getLast?_cons_cons]

open Op

/-! ## Call sequences on an arena that is in order -/

theorem exec_append (c : Params) (xs ys : List Op) (r : Run) :
    exec c (xs ++ ys) r =
      match exec c xs r with
      | .ok r1 => exec c ys r1
      | .error e => .error e := by
  induction xs generalizing r with
  | nil => rfl
  | cons o os ih =>
    simp only [List.cons_append, exec]
    cases step c r o with
    | ok r1 => exact ih r1
    | error e => rfl

/-- The search loop ends at the null link when no slab of the list contains `p`. -/
theorem find_null_of_walk (c : Params) (p : Ptr) (l : block_list) :
    ∀ (n : Nat) (s : Option Nat) (L : List (Nat × Nat)), l.walk n s = some L →
      (∀ x, x ∈ L → block_block.inblock c x.1 p = false) → l.find c p n s = .null := by
  intro n
  induction n with
  | zero =>
    intro s L hw _
    cases s with
    | none => rfl
    | some a => simp [block_list.walk] at hw
  | succ n ih =>
    intro s L hw hL
    cases s with
    | none => rfl
    | some a =>
      simp only [block_list.walk] at hw
      simp only [block_list.find]
      cases hb : l.heap a with
      | none => simp [hb] at hw
      | some b =>
        simp only [hb, Option.map_eq_some'] at hw
        obtain ⟨R, hR, hLR⟩ := hw
        subst hLR
        have h1 : block_block.inblock c a p = false := hL (a, b.slots) (List.mem_cons_self _ _)
        simp only [h1, Bool.false_eq_true, if_false]
        exact ih b.next R hR (fun x hx => hL x (List.mem_cons_of_mem _ hx))

/-! ## Instantiations with more than 32 slots -/

/-- Claim C1, refuted on the code. With two slots per slab: three allocations, the
deallocation of the first pointer and one more allocation leave the list `[slab 0, slab 1]`
with `head = tail = slab 0`, slab 0 full (bitmap 3) and slab 1 with room (bitmap 1): a slab of
the list has room while the head slab has none. -/
theorem placement_broken_after_promoting_tail :
    (exec ⟨2, 64⟩ [Op.alloc, Op.alloc, Op.alloc, Op.dealloc ⟨0, 0⟩, Op.alloc]
        Run.new).toOption.map (fun r => (r.snapshot, r.arena.roomy ⟨2, 64⟩, r.live))
      = some (⟨some [(0, 3), (1, 1)], some 0, some 0, [0, 1]⟩, [1],
          [⟨0, 0⟩, ⟨1, 0⟩, ⟨0, 1⟩]) := by
  decide

/-- Claim C2, refuted on the code. With two slots per slab: after three allocations, the
deallocation of the first pointer and three more allocations, slab 1 still exists and holds the
live pointer `(1, 0)` but is no longer in the list `[slab 0, slab 2]`; deallocating that live
pointer throws `std::bad_alloc`. -/
theorem live_pointer_rejected_after_slab_lost :
    (exec ⟨2, 64⟩ [Op.alloc, Op.alloc, Op.alloc, Op.dealloc ⟨0, 0⟩, Op.alloc, Op.alloc, Op.alloc]
        Run.new).toOption.map (fun r => (r.snapshot, r.live))
      = some (⟨some [(0, 3), (2, 3)], some 0, some 2, [0, 1, 2]⟩,
          [⟨2, 1⟩, ⟨2, 0⟩, ⟨0, 0⟩, ⟨1, 0⟩, ⟨0, 1⟩]) ∧
    stopped (exec ⟨2, 64⟩
        [Op.alloc, Op.alloc, Op.alloc, Op.dealloc ⟨0, 0⟩, Op.alloc, Op.alloc, Op.alloc,
         Op.dealloc ⟨1, 0⟩] Run.new)
      = some Stop.bad_alloc := by
  decide

/-- Claim C3, refuted on the code. With two slots per slab: after four allocations, the
deallocation of both pointers of slab 1 and one more allocation, `tail` is null while the list
is `[slab 2, slab 0]`; the next allocation fills `head` and dereferences the null `tail`. -/
theorem allocate_dereferences_null_tail :
    (exec ⟨2, 64⟩
        [Op.alloc, Op.alloc, Op.alloc, Op.alloc, Op.dealloc ⟨1, 0⟩, Op.dealloc ⟨1, 1⟩, Op.alloc]
        Run.new).toOption.map Run.snapshot
      = some ⟨some [(2, 1), (0, 3)], some 2, none, [0, 2]⟩ ∧
    stopped (exec ⟨2, 64⟩
        [Op.alloc, Op.alloc, Op.alloc, Op.alloc, Op.dealloc ⟨1, 0⟩, Op.dealloc ⟨1, 1⟩, Op.alloc,
         Op.alloc] Run.new)
      = some Stop.fault := by
  decide

/-- Claim C5, refuted on the code. With two slots per slab: after six completed allocations
and one completed deallocation of a valid sequence, the slabs of the list hold 4 set occupancy
bits, not 6 - 1 = 5. -/
theorem live_slots_lost_with_slab :
    (exec ⟨2, 64⟩ [Op.alloc, Op.alloc, Op.alloc, Op.dealloc ⟨0, 0⟩, Op.alloc, Op.alloc, Op.alloc]
        Run.new).toOption.map (fun r => (r.allocs, r.deallocs, r.arena.liveSlots ⟨2, 64⟩))
      = some (6, 1, 4) := by
  decide

/-- Claim C6, refuted on the code. With two slots per slab: a valid sequence of seven
allocations and seven deallocations, after which no pointer is live, ends with an empty list
(`head` and `tail` null); the embedded slab is not in it. -/
theorem list_empty_after_full_drain :
    (exec ⟨2, 64⟩
        [Op.alloc, Op.alloc, Op.alloc, Op.alloc,
         Op.dealloc ⟨0, 0⟩, Op.dealloc ⟨0, 1⟩, Op.dealloc ⟨1, 0⟩,
         Op.alloc, Op.alloc, Op.alloc,
         Op.dealloc ⟨1, 0⟩, Op.dealloc ⟨1, 1⟩, Op.dealloc ⟨2, 0⟩, Op.dealloc ⟨2, 1⟩]
        Run.new).toOption.map (fun r => (r.snapshot, r.live, r.allocs, r.deallocs))
      = some (⟨some [], none, none, [0]⟩, [], 7, 7) := by
  decide

/-- Claim C8. In every arena whose list ends at a null link, deallocating a pointer that lies
in the storage of no slab of the list throws `std::bad_alloc` with the arena exactly as it was
(bitmaps, links, `head`, `tail`, slabs), both through `block_list::deallocate` and through
`block_allocator::deallocate`; the outcome is a function of the arena and the pointer. -/
theorem deallocate_foreign_pointer (c : Params) (l : block_list) (p : Ptr)
    (L : List (Nat × Nat)) (hL : l.slabs = some L)
    (hp : ∀ x, x ∈ L → block_block.inblock c x.1 p = false) :
    l.deallocate c p = .bad_alloc l ∧ block_allocator.deallocate c (some p) l = .bad_alloc l := by
  have hf := find_null_of_walk c p l (l.brk + 1) l.head L hL hp
  have h1 : l.deallocate c p = .bad_alloc l := by
    simp only [block_list.deallocate, hf]
  exact ⟨h1, h1⟩

/-- Claim C8, on a fresh arena with a pointer into storage at address 7. -/
theorem deallocate_foreign_pointer_witness :
    block_list.new.slabs = some [(0, 0)] ∧
    (∀ x, x ∈ [((0 : Nat), (0 : Nat))] → block_block.inblock ⟨8, 64⟩ x.1 ⟨7, 3⟩ = false) ∧
    block_list.new.deallocate ⟨8, 64⟩ ⟨7, 3⟩ = .bad_alloc block_list.new ∧
    block_allocator.deallocate ⟨8, 64⟩ (some ⟨7, 3⟩) block_list.new = .bad_alloc block_list.new :=
  ⟨by decide, by decide,
    deallocate_foreign_pointer ⟨8, 64⟩ block_list.new ⟨7, 3⟩ [(0, 0)] (by decide) (by decide)⟩

/-- Claim C9. With four slots per slab (32-bit or 64-bit bitmask), on a fresh arena: after
five allocations the list is `[slab 1, slab 0]` with the embedded slab 0 full (bitmap 15) and
slab 1 holding only the fifth element (bitmap 1), two slabs exist; after the deallocation of
the first four pointers the list is `[slab 0, slab 1]` with the embedded slab empty and still
in the list, slab 1 with exactly its slot 0 live, and still two slabs exist. -/
theorem scenario_five_then_four :
    ((exec ⟨4, 32⟩ [Op.alloc, Op.alloc, Op.alloc, Op.alloc, Op.alloc] Run.new).toOption.map
        (fun r => (r.snapshot, r.out))
      = some (⟨some [(1, 1), (0, 15)], some 1, some 0, [0, 1]⟩,
          [⟨1, 0⟩, ⟨0, 3⟩, ⟨0, 2⟩, ⟨0, 1⟩, ⟨0, 0⟩]) ∧
    (exec ⟨4, 32⟩ [Op.alloc, Op.alloc, Op.alloc, Op.alloc, Op.alloc,
        Op.dealloc ⟨0, 0⟩, Op.dealloc ⟨0, 1⟩, Op.dealloc ⟨0, 2⟩, Op.dealloc ⟨0, 3⟩]
        Run.new).toOption.map (fun r => (r.snapshot, r.live))
      = some (⟨some [(0, 0), (1, 1)], some 0, some 0, [0, 1]⟩, [⟨1, 0⟩])) ∧
    ((exec ⟨4, 64⟩ [Op.alloc, Op.alloc, Op.alloc, Op.alloc, Op.alloc] Run.new).toOption.map
        (fun r => (r.snapshot, r.out))
      = some (⟨some [(1, 1), (0, 15)], some 1, some 0, [0, 1]⟩,
          [⟨1, 0⟩, ⟨0, 3⟩, ⟨0, 2⟩, ⟨0, 1⟩, ⟨0, 0⟩]) ∧
    (exec ⟨4, 64⟩ [Op.alloc, Op.alloc, Op.alloc, Op.alloc, Op.alloc,
        Op.dealloc ⟨0, 0⟩, Op.dealloc ⟨0, 1⟩, Op.dealloc ⟨0, 2⟩, Op.dealloc ⟨0, 3⟩]
        Run.new).toOption.map (fun r => (r.snapshot, r.live))
      = some (⟨some [(0, 0), (1, 1)], some 0, some 0, [0, 1]⟩, [⟨1, 0⟩])) := by
  decide

/-- Claim C10, refuted on the code. With two slots per slab: after two allocations the only
slab is full, so the next `allocate` needs a new slab; when `malloc` returns null, both
`block_list::allocate` and `block_allocator::allocate` dereference the null pointer instead of
throwing `std::bad_alloc`. -/
theorem malloc_failure_faults :
    (exec ⟨2, 64⟩ [Op.alloc, Op.alloc] Run.new).toOption.map
        (fun r => (r.snapshot, r.arena.roomy ⟨2, 64⟩,
          (r.arena.allocate ⟨2, 64⟩ false).stop,
          (block_allocator.allocate ⟨2, 64⟩ false r.arena).stop))
      = some (⟨some [(0, 3)], some 0, some 0, [0]⟩, [], some Stop.fault, some Stop.fault) := by
  decide

/-- Claim C11, refuted on the code. With a 64-bit counter, for the instantiation with element
type 0 and 8 slots: the refcount starts at 1; after one default construction it is still 1
with one outstanding handle (not 1 + 1); destroying that handle leaves 0 (not the initial 1);
a second default construction and destruction wrap it below zero to `2^64 - 1`. A copy
construction adds one and its destruction takes one away. -/
theorem refcount_unbalanced_by_default_construction :
    (HRun.new.balance ⟨0, 8⟩ = (1, 0)) ∧
    (hexec ⟨8, 64⟩ ⟨0, 8⟩ [HOp.construct] HRun.new).map (HRun.balance ⟨0, 8⟩) = some (1, 1) ∧
    (hexec ⟨8, 64⟩ ⟨0, 8⟩ [HOp.construct, HOp.destroy 0] HRun.new).map (HRun.balance ⟨0, 8⟩)
      = some (0, 0) ∧
    (hexec ⟨8, 64⟩ ⟨0, 8⟩ [HOp.construct, HOp.destroy 0, HOp.construct, HOp.destroy 0]
        HRun.new).map (HRun.balance ⟨0, 8⟩)
      = some (2 ^ 64 - 1, 0) ∧
    (hexec ⟨8, 64⟩ ⟨0, 8⟩ [HOp.construct, HOp.copy 0] HRun.new).map (HRun.balance ⟨0, 8⟩)
      = some (2, 2) ∧
    (hexec ⟨8, 64⟩ ⟨0, 8⟩ [HOp.construct, HOp.copy 0, HOp.destroy 1] HRun.new).map
        (HRun.balance ⟨0, 8⟩)
      = some (1, 1) := by
  decide

/-- Claim C12, refuted as stated. With a 64-bit counter: after two default constructions each
followed by its destruction the refcount is `2^64 - 1`; copying a third handle then leaves the
refcount 0, not `2^64`. -/
theorem copy_wraps_refcount :
    (hexec ⟨8, 64⟩ ⟨0, 8⟩
        [HOp.construct, HOp.destroy 0, HOp.construct, HOp.destroy 0, HOp.construct]
        HRun.new).map (HRun.balance ⟨0, 8⟩)
      = some (2 ^ 64 - 1, 1) ∧
    (hexec ⟨8, 64⟩ ⟨0, 8⟩
        [HOp.construct, HOp.destroy 0, HOp.construct, HOp.destroy 0, HOp.construct, HOp.copy 0]
        HRun.new).map (HRun.balance ⟨0, 8⟩)
      = some (0, 2) := by
  decide

/-- Claim C12, amended. The copy of a handle `h` is of the same instantiation and bound to
the same `block_list`, so `operator==` holds between them and `operator!=` does not; the
refcount of that arena becomes its successor modulo `2^W`, which is one more whenever it was
below `2^W - 1`; nothing else of that arena and no other arena changes; and `deallocate`
called on the copy does to the arena exactly what `deallocate` called on `h` does. -/
theorem copy_shares_arena (c : Params) (h : block_allocator) (w : Statics) :
    ((block_allocator.ctor_copy c h w).1.inst = h.inst ∧
     (block_allocator.ctor_copy c h w).1.blocks = h.blocks ∧
     block_allocator.eq (block_allocator.ctor_copy c h w).1 h = true ∧
     block_allocator.ne (block_allocator.ctor_copy c h w).1 h = false) ∧
    (((block_allocator.ctor_copy c h w).2 h.blocks).refcount
        = ((w h.blocks).refcount + 1) % 2 ^ c.W ∧
     ((w h.blocks).refcount + 1 < 2 ^ c.W →
        ((block_allocator.ctor_copy c h w).2 h.blocks).refcount = (w h.blocks).refcount + 1)) ∧
    (((block_allocator.ctor_copy c h w).2 h.blocks).heap = (w h.blocks).heap ∧
     ((block_allocator.ctor_copy c h w).2 h.blocks).brk = (w h.blocks).brk ∧
     ((block_allocator.ctor_copy c h w).2 h.blocks).head = (w h.blocks).head ∧
     ((block_allocator.ctor_copy c h w).2 h.blocks).tail = (w h.blocks).tail ∧
     ∀ k, k ≠ h.blocks → (block_allocator.ctor_copy c h w).2 k = w k) ∧
    ∀ (v : Statics) (p : Option Ptr),
      block_allocator.deallocate_on c v (block_allocator.ctor_copy c h w).1 p
        = block_allocator.deallocate_on c v h p := by
  refine ⟨⟨rfl, rfl, ?_, ?_⟩, ⟨?_, ?_⟩, ⟨?_, ?_, ?_, ?_, ?_⟩, ?_⟩
  · simp [block_allocator.eq, block_allocator.ctor_copy]
  · simp [block_allocator.ne, block_allocator.ctor_copy]
  · simp [block_allocator.ctor_copy, block_list.incref]
  · intro hlt
    simp [block_allocator.ctor_copy, block_list.incref, Nat.mod_eq_of_lt hlt]
  · simp [block_allocator.ctor_copy, block_list.incref]
  · simp [block_allocator.ctor_copy, block_list.incref]
  · simp [block_allocator.ctor_copy, block_list.incref]
  · simp [block_allocator.ctor_copy, block_list.incref]
  · intro k hk
    simp [block_allocator.ctor_copy, Function.update_noteq hk]
  · intro v p
    rfl

/-- Claim C13. The converting constructor of instantiation `k`, given a handle `src` of a
different instantiation (bound, as its type demands, to the arena of its own instantiation),
binds the new handle to the arena `blocks_static` of `k`, which is not the arena of `src`,
and leaves every arena, the one of `src` included, as it was: list, bitmaps and refcount. -/
theorem convert_never_aliases (k : Inst) (src : block_allocator) (w : Statics)
    (htyped : src.blocks = src.inst) (hdiff : src.inst ≠ k) :
    (block_allocator.ctor_convert k src w).1.inst = k ∧
    (block_allocator.ctor_convert k src w).1.blocks = k ∧
    (block_allocator.ctor_convert k src w).1.blocks ≠ src.blocks ∧
    block_allocator.eq (block_allocator.ctor_convert k src w).1 src = false ∧
    (block_allocator.ctor_convert k src w).2 = w := by
  have hne : k ≠ src.blocks := by
    rw [htyped]
    exact fun e => hdiff e.symm
  refine ⟨rfl, rfl, hne, ?_, rfl⟩
  simp [block_allocator.eq, block_allocator.ctor_convert, hne]

/-- Claim C13, converting a handle for elements of type 1 with 32 slots into one for elements
of type 0 with 8 slots. -/
theorem convert_never_aliases_witness :
    (⟨⟨1, 32⟩, ⟨1, 32⟩⟩ : block_allocator).blocks = (⟨⟨1, 32⟩, ⟨1, 32⟩⟩ : block_allocator).inst ∧
    (⟨⟨1, 32⟩, ⟨1, 32⟩⟩ : block_allocator).inst ≠ ⟨0, 8⟩ ∧
    (block_allocator.ctor_convert ⟨0, 8⟩ ⟨⟨1, 32⟩, ⟨1, 32⟩⟩ Statics.new).1.inst = ⟨0, 8⟩ ∧
    (block_allocator.ctor_convert ⟨0, 8⟩ ⟨⟨1, 32⟩, ⟨1, 32⟩⟩ Statics.new).1.blocks = ⟨0, 8⟩ ∧
    (block_allocator.ctor_convert ⟨0, 8⟩ ⟨⟨1, 32⟩, ⟨1, 32⟩⟩ Statics.new).1.blocks
      ≠ (⟨⟨1, 32⟩, ⟨1, 32⟩⟩ : block_allocator).blocks ∧
    block_allocator.eq (block_allocator.ctor_convert ⟨0, 8⟩ ⟨⟨1, 32⟩, ⟨1, 32⟩⟩ Statics.new).1
      ⟨⟨1, 32⟩, ⟨1, 32⟩⟩ = false ∧
    (block_allocator.ctor_convert ⟨0, 8⟩ ⟨⟨1, 32⟩, ⟨1, 32⟩⟩ Statics.new).2 = Statics.new :=
  ⟨rfl, by decide,
    convert_never_aliases ⟨0, 8⟩ ⟨⟨1, 32⟩, ⟨1, 32⟩⟩ Statics.new rfl (by decide)⟩

/-- Claim C14, refuted on the code. With 32 slots and a 64-bit bitmask, a slab with the slots
0..30 live (bitmap `2^31 - 1`, as 31 allocations leave it) has room; `allocate` returns slot
31, the smallest free one, but the bitmap becomes `2^64 - 1`: besides bit 31 the bits 32..63
are set, bit 40 for one. -/
theorem allocate_sets_high_bits :
    (exec ⟨32, 64⟩ (List.replicate 31 Op.alloc) Run.new).toOption.map
        (fun r => r.arena.slabs) = some (some [(0, 2 ^ 31 - 1)]) ∧
    block_block.hasroom ⟨32, 64⟩ ⟨none, none, 2 ^ 31 - 1⟩ = true ∧
    block_block.allocate ⟨32, 64⟩ ⟨none, none, 2 ^ 31 - 1⟩
      = (some 31, ⟨none, none, 2 ^ 64 - 1⟩) ∧
    Nat.testBit (2 ^ 31 - 1) 40 = false ∧ Nat.testBit (2 ^ 64 - 1) 40 = true := by
  decide

/-- Claim C15, refuted on the code. With 32 slots and a 64-bit bitmask, a slab with all 32
slots live has the bitmap `2^64 - 1` (as 32 allocations leave it); `deallocate(&ptr[31])`
turns it into `2^31 - 1`: besides bit 31 the bits 32..63 are cleared, bit 40 for one. -/
theorem deallocate_clears_high_bits :
    (exec ⟨32, 64⟩ (List.replicate 32 Op.alloc) Run.new).toOption.map
        (fun r => r.arena.slabs) = some (some [(0, 2 ^ 64 - 1)]) ∧
    block_block.deallocate ⟨32, 64⟩ ⟨none, none, 2 ^ 64 - 1⟩ 31 = ⟨none, none, 2 ^ 31 - 1⟩ ∧
    Nat.testBit (2 ^ 64 - 1) 40 = true ∧ Nat.testBit (2 ^ 31 - 1) 40 = false := by
  decide

/-- Claim C16, refuted on the code. With two slots per slab: after four allocations, the
deallocation of the third pointer and three more allocations, every call valid and completed,
the list is `[slab 1, slab 2]`: the embedded slab 0 still exists, full, but is not reachable
from `head`. -/
theorem embedded_slab_cut_off :
    (exec ⟨2, 64⟩
        [Op.alloc, Op.alloc, Op.alloc, Op.alloc, Op.dealloc ⟨1, 0⟩, Op.alloc, Op.alloc, Op.alloc]
        Run.new).toOption.map (fun r => (r.snapshot, (r.arena.heap 0).map (fun b => b.slots)))
      = some (⟨some [(1, 3), (2, 3)], some 1, some 2, [0, 1, 2]⟩, some 3) := by
  decide

/-- Claim C17, refuted on the code. With two slots per slab: after three allocations and the
deallocation of the first pointer the list is `[slab 0, slab 1]` while `tail` is slab 0: `tail`
is not the last slab, and `tail->next` is slab 1, not null. -/
theorem tail_not_last_after_promotion :
    (exec ⟨2, 64⟩ [Op.alloc, Op.alloc, Op.alloc, Op.dealloc ⟨0, 0⟩] Run.new).toOption.map
        (fun r => (r.snapshot, (r.arena.tail.bind r.arena.heap).map (fun b => b.next)))
      = some (⟨some [(0, 2), (1, 1)], some 0, some 0, [0, 1]⟩, some (some 1)) := by
  decide

/-- Claim C20, refuted on the code. For 8 slots the constant is `2^8 - 1` with either bitmask
width, and for 32 slots with a 32-bit bitmask it is `2^32 - 1`; for 32 slots with a 64-bit
bitmask `1<<32` wraps to 0 in `int`, `0 - 1` is `-1`, and its conversion gives `2^64 - 1`, with
the bits 32..63 set as well. -/
theorem fullmask_policy_values :
    fullmask ⟨8, 32⟩ = 2 ^ 8 - 1 ∧ fullmask ⟨8, 64⟩ = 2 ^ 8 - 1 ∧
    fullmask ⟨32, 32⟩ = 2 ^ 32 - 1 ∧
    fullmask ⟨32, 64⟩ = 2 ^ 64 - 1 ∧ fullmask ⟨32, 64⟩ ≠ 2 ^ 32 - 1 ∧
    Nat.testBit (fullmask ⟨32, 64⟩) 40 = true := by
  decide

/-! ## Allocation takes the first free slot -/

theorem Rep.scan_least {c : Params} (hc : c.Valid) {s : Nat} {S : Nat → Prop} (h : Rep c s S) :
    ∀ (n i0 : Nat), i0 + n = c.N → (∀ i, i < i0 → S i) → (∃ i, i < c.N ∧ ¬ S i) →
      ∃ i, block_block.scan c s n i0 = some (i, s ||| bit c i) ∧ i < c.N ∧ ¬ S i ∧
        ∀ j, j < i → S j := by
  intro n
  induction n with
  | zero =>
    intro i0 h0 hlow ⟨i, hi, hS⟩
    exact absurd (hlow i (by omega)) hS
  | succ n ih =>
    intro i0 h0 hlow hex
    by_cases hS : S i0
    · have hne : ¬ (s &&& bit c i0 = 0) := by
        rw [h.land_bit hc (by omega)]
        exact not_not.2 hS
      simp only [block_block.scan, if_neg hne]
      apply ih (i0 + 1) (by omega) _ hex
      intro i hi
      by_cases hi0 : i = i0
      · exact hi0 ▸ hS
      · exact hlow i (by omega)
    · have he : s &&& bit c i0 = 0 := (h.land_bit hc (by omega)).2 hS
      exact ⟨i0, by simp only [block_block.scan, if_pos he], by omega, hS, hlow⟩

/-- Slab allocation on a slab with room returns the smallest free offset and marks it. -/
theorem Rep.slab_allocate_least {c : Params} (hc : c.Valid) {b : block_block} {S : Nat → Prop}
    (h : Rep c b.slots S) (hroom : b.hasroom c = true) :
    ∃ i, b.allocate c = (some i, { b with slots := b.slots ||| bit c i }) ∧ i < c.N ∧ ¬ S i ∧
      (∀ j, j < i → S j) ∧ Rep c (b.slots ||| bit c i) (fun k => S k ∨ k = i) := by
  have hex := (h.hasroom hc b.prev b.next).1 hroom
  obtain ⟨i, hscan, hi, hS, hleast⟩ :=
    h.scan_least hc c.N 0 (by omega) (by intro i hi; omega) hex
  exact ⟨i, by simp only [block_block.allocate, hscan], hi, hS, hleast, h.lor_bit hi⟩

/-- Allocation from a head slab with room, `tail` being the last slab of the list: the
smallest free slot of the head slab is returned, and the head slab goes behind the others
exactly when this filled it and it is not the only slab. -/
theorem Chain.take_least {c : Params} (hc : c.Valid) {l : block_list} {y : Nat} {M : List Nat}
    {σ : Nat → Nat} (h : Chain l (y :: M) σ) (ht : l.tail = (y :: M).getLast?)
    {S : Nat → Prop} (hS : Rep c (σ y) S)
    (hroom : block_block.hasroom c ⟨prevIn (y :: M) y, nextIn (y :: M) y, σ y⟩ = true) :
    ∃ i l1, l.take c = some (some ⟨y, i⟩, l1) ∧ i < c.N ∧ ¬ S i ∧ (∀ j, j < i → S j) ∧
      l1.brk = l.brk ∧
      (((∀ k, k < c.N → S k ∨ k = i) ∧ M ≠ [] ∧
          Chain l1 (M ++ [y]) (Function.update σ y (σ y ||| bit c i)) ∧
          l1.tail = (M ++ [y]).getLast?) ∨
       (¬ ((∀ k, k < c.N → S k ∨ k = i) ∧ M ≠ []) ∧
          Chain l1 (y :: M) (Function.update σ y (σ y ||| bit c i)) ∧
          l1.tail = (y :: M).getLast?)) := by
  have hy : y ∈ y :: M := List.mem_cons_self y M
  obtain ⟨i, hal, hi, hSi, hleast, hrep⟩ :=
    Rep.slab_allocate_least hc (b := ⟨prevIn (y :: M) y, nextIn (y :: M) y, σ y⟩) hS hroom
  have h2 := h.store_slots hy (σ y ||| bit c i)
  have hfull : block_block.hasroom c ⟨prevIn (y :: M) y, nextIn (y :: M) y, σ y ||| bit c i⟩
      = false ↔ ∀ k, k < c.N → S k ∨ k = i := by
    rw [← Bool.not_eq_true, hrep.hasroom hc]
    constructor
    · intro hne k hk
      by_contra hk2
      exact hne ⟨k, hk, hk2⟩
    · rintro hall ⟨k, hk, hk2⟩
      exact hk2 (hall k hk)
  have e : l.take c =
      if block_block.hasroom c ⟨prevIn (y :: M) y, nextIn (y :: M) y, σ y ||| bit c i⟩ = false ∧
          l.head ≠ l.tail then
        ((l.store y ⟨prevIn (y :: M) y, nextIn (y :: M) y, σ y ||| bit c i⟩).demote).map
          (fun l1 => (some ⟨y, i⟩, l1))
      else some (some ⟨y, i⟩, l.store y ⟨prevIn (y :: M) y, nextIn (y :: M) y, σ y ||| bit c i⟩) := by
    have hh : l.head = some y := h.head
    simp only [block_list.take, hh, h.cell_of_mem hy, Option.bind_eq_bind, Option.some_bind, hal,
      block_list.store, Function.update_same, Option.pure_def, Option.map_some']
    by_cases h1 : block_block.hasroom c
        ⟨prevIn (y :: M) y, nextIn (y :: M) y, σ y ||| bit c i⟩ = true <;>
      by_cases h2 : some y = l.tail <;> simp [h1, h2, Option.map, Option.bind]
    · cases hd : block_list.demote _ <;> rfl
  refine ⟨i, ?_⟩
  rw [e]
  cases M with
  | nil =>
    have hnt : ¬ (block_block.hasroom c
        ⟨prevIn [y] y, nextIn [y] y, σ y ||| bit c i⟩ = false ∧ l.head ≠ l.tail) := by
      rintro ⟨-, hne⟩
      apply hne
      rw [ht, h.head]
      rfl
    rw [if_neg hnt]
    exact ⟨_, rfl, hi, hSi, hleast, rfl, Or.inr ⟨fun hx => hx.2 rfl, h2, ht⟩⟩
  | cons m M2 =>
    have hne : l.head ≠ l.tail := by
      rw [ht, h.head, List.getLast?_cons_cons]
      intro e1
      have : y ∈ m :: M2 := List.mem_of_getLast?_eq_some e1.symm
      exact (List.nodup_cons.1 h.nodup).1 this
    by_cases hf : block_block.hasroom c
        ⟨prevIn (y :: m :: M2) y, nextIn (y :: m :: M2) y, σ y ||| bit c i⟩ = false
    · rw [if_pos ⟨hf, hne⟩]
      obtain ⟨l1, hd, hb, -, htl, hch⟩ := h2.demote ht
      exact ⟨l1, by rw [hd]; rfl, hi, hSi, hleast, hb,
        Or.inl ⟨hfull.1 hf, by simp, hch, htl⟩⟩
    · rw [if_neg (fun hx => hf hx.1)]
      exact ⟨_, rfl, hi, hSi, hleast, rfl, Or.inr ⟨fun hx => hf (hfull.2 hx.1), h2, ht⟩⟩

/-- A chain determines its list. -/
theorem Chain.unique {l : block_list} {L L1 : List Nat} {σ σ1 : Nat → Nat}
    (h : Chain l L σ) (h1 : Chain l L1 σ1) : L = L1 := by
  have e := h.walk L [] (L.length + L1.length) rfl (by omega)
  have e1 := h1.walk L1 [] (L.length + L1.length) rfl (by omega)
  rw [← h.head] at e
  rw [← h1.head, e] at e1
  have e2 := congrArg (List.map Prod.fst) (Option.some.inj e1)
  have m1 : ∀ (τ : Nat → Nat) (K : List Nat), List.map Prod.fst (K.map fun a => (a, τ a)) = K := by
    intro τ K
    induction K with
    | nil => rfl
    | cons a K ih => simp only [List.map_cons, ih]
  rw [m1, m1] at e2
  exact e2

/-- Allocation through a new slab returns slot 0 of the new slab, which becomes the first of
the list. -/
theorem Chain.grow_zero {c : Params} (hc : c.Valid) {l : block_list} {y : Nat} {M : List Nat}
    {σ : Nat → Nat} (h : Chain l (y :: M) σ) (hfresh : l.brk ∉ y :: M) :
    ∃ l1, l.grow c true = some (some ⟨l.brk, 0⟩, l1) ∧
      l1.brk = l.brk + 1 ∧ l1.tail = l.tail ∧
      Chain l1 (l.brk :: y :: M) (Function.update σ l.brk (0 ||| bit c 0)) := by
  have hy : y ∈ y :: M := List.mem_cons_self y M
  have hby : l.brk ≠ y := fun e => hfresh (by simp [e])
  have hroom : block_block.hasroom c ⟨none, some y, 0⟩ = true :=
    ((Rep.zero c).hasroom hc none (some y)).2 ⟨0, hc.1, fun e => e⟩
  obtain ⟨i, hal, -, -, hleast, -⟩ :=
    Rep.slab_allocate_least hc (b := ⟨none, some y, 0⟩) (Rep.zero c) hroom
  have hi0 : i = 0 := by
    by_contra hne
    exact hleast 0 (Nat.pos_of_ne_zero hne)
  subst hi0
  have hh : l.head = some y := h.head
  refine ⟨{ refcount := l.refcount,
            heap := Function.update (Function.update l.heap y
                  (some ⟨some l.brk, nextIn (y :: M) y, σ y⟩)) l.brk
                  (some ⟨none, some y, 0 ||| bit c 0⟩),
            brk := l.brk + 1, head := some l.brk, tail := l.tail }, ?_, rfl, rfl, ?_⟩
  · simp [block_list.grow, block_list._alloc, block_list.store, block_block.new, hh,
      Function.update_apply, hby, Ne.symm hby, h.cell_of_mem hy, hal]
    funext a
    by_cases hab : a = l.brk
    · subst hab
      simp only [Function.update_same]
    · simp only [Function.update_apply, if_neg hab]
  · refine ⟨List.nodup_cons.2 ⟨hfresh, h.nodup⟩, rfl, ?_⟩
    intro a
    have hcell := h.cell a
    have en : nextIn (l.brk :: y :: M) a = if l.brk = a then some y else nextIn (y :: M) a := rfl
    have ep : prevIn (l.brk :: y :: M) a = if y = a then some l.brk else prevIn (y :: M) a := by
      rw [prevIn_cons]
      simp only [List.head?_cons, Option.some.injEq]
    rw [en, ep]
    by_cases hab : a = l.brk
    · subst hab
      have e1 : prevIn (y :: M) l.brk = none := prevIn_of_not_mem hfresh
      simp [hby, Ne.symm hby, e1]
    · have hba : ¬ l.brk = a := fun e => hab e.symm
      by_cases hay : a = y
      · subst hay
        simp [Function.update_apply, hab, hba]
      · have hya : ¬ y = a := fun e => hay e.symm
        simp [Function.update_apply, hab, hba, hay, hya, hcell]

theorem Burst.fresh (c : Params) : Burst c block_list.new [] [block_list.block] 0 := by
  refine ⟨⟨_, Inv.new c⟩, rfl, rfl, Nat.zero_le _, ?_, ?_, ?_⟩
  · intro h2
    simp at h2
  · intro y _ i _
    simp
  · intro a ha
    simp at ha

/-- When the head slab of such an arena is full, no slab of the list has room. -/
theorem Burst.roomy_nil {c : Params} (hc : c.Valid) {l : block_list} {A : List Ptr}
    {L : List Nat} {h : Nat} (hb : Burst c l A L h) (hh : h = c.N) : l.roomy c = [] := by
  obtain ⟨σ, hinv⟩ := hb.inv
  have hlen : L.length ≤ l.brk := length_le_of_nodup_of_lt hinv.chain.nodup hinv.below
  have hw := hinv.chain.walk L [] (l.brk + 1) rfl (by omega)
  rw [← hinv.chain.head] at hw
  have hall : ∀ a, a ∈ L → ∀ i, i < c.N → (⟨a, i⟩ : Ptr) ∈ A := by
    intro a ha i hi
    cases L with
    | nil => simp at ha
    | cons y M =>
      rcases List.mem_cons.1 ha with e | e
      · subst e
        exact (hb.front a rfl i hi).2 (by omega)
      · exact hb.rest a e i hi
  simp only [block_list.roomy, block_list.slabs, hw, Option.getD_some, List.map_eq_nil_iff,
    List.filter_eq_nil_iff, List.mem_map, forall_exists_index, and_imp]
  intro x a ha hx
  subst hx
  simp only [Bool.not_eq_true]
  rw [← Bool.not_eq_true, (hinv.rep a ha).hasroom hc]
  rintro ⟨i, hi, hni⟩
  exact hni (hall a ha i hi)

/-- One more allocation after a run of allocations only. A new slab is obtained only when the
head slab, and so every slab, is full. -/
theorem Burst.step {c : Params} (hc : c.Valid) {l : block_list} {A : List Ptr}
    {L : List Nat} {h : Nat} (hb : Burst c l A L h) :
    ∃ p l1 L1 h1, l.allocate c true = .ok (some p) l1 ∧ Burst c l1 (p :: A) L1 h1 ∧
      (L1.length - 1) * c.N + h1 = (L.length - 1) * c.N + h + 1 ∧
      (l.brk < l1.brk → h = c.N) := by
  obtain ⟨σ, hinv⟩ := hb.inv
  have hN := hc.1
  obtain ⟨p, l1, L1, σ1, hal, hpA, hinv1, ht1⟩ := hinv.allocate_ok hc hb.tail
  cases L with
  | nil => exact absurd hinv.emb (by simp)
  | cons y M =>
    have hy : y ∈ y :: M := List.mem_cons_self y M
    have hcy := hinv.chain.cell_of_mem hy
    have hhead : l.head = some y := hinv.chain.head
    have hfront := hb.front y rfl
    by_cases hlt : h < c.N
    · -- the head slab has room
      have hroom : block_block.hasroom c ⟨prevIn (y :: M) y, nextIn (y :: M) y, σ y⟩ = true :=
        ((hinv.rep y hy).hasroom hc _ _).2 ⟨h, hlt, fun e => absurd ((hfront h hlt).1 e) (lt_irrefl _)⟩
      obtain ⟨i, l2, htake, hi, hSi, hleast, hbrk, hdisj⟩ :=
        hinv.chain.take_least hc hb.tail (hinv.rep y hy) hroom
      have hih : i = h := by
        have h1 : h ≤ i := by
          by_contra hcon
          exact hSi ((hfront i hi).2 (by omega))
        have h2 : ¬ h < i := fun hcon => absurd ((hfront h hlt).1 (hleast h hcon)) (lt_irrefl _)
        omega
      subst hih
      have hal2 : l.allocate c true = .ok (some ⟨y, i⟩) l2 := by
        simp only [block_list.allocate, hhead, Option.some_bind, hcy, hroom, if_true, htake]
      rw [hal] at hal2
      injection hal2 with hp hl
      have hp : p = ⟨y, i⟩ := Option.some.inj hp
      subst hp
      subst hl
      have hmemp : ∀ a k, (⟨a, k⟩ : Ptr) ∈ (⟨y, i⟩ : Ptr) :: A ↔ (a = y ∧ k = i) ∨ (⟨a, k⟩ : Ptr) ∈ A := by
        intro a k
        simp only [List.mem_cons, Ptr.mk.injEq]
      rcases hdisj with ⟨hfull, hM, hch, htl⟩ | ⟨hnfull, hch, htl⟩
      · -- the head slab became full and goes behind the others
        have hL1 : L1 = M ++ [y] := hinv1.chain.unique hch
        subst hL1
        have hiN : i + 1 = c.N := by
          rcases hfull (c.N - 1) (by omega) with e | e
          · have := (hfront (c.N - 1) (by omega)).1 e
            omega
          · omega
        refine ⟨_, _, M ++ [y], c.N, hal, ⟨⟨σ1, hinv1⟩, htl, ?_, le_refl _, fun _ => hN, ?_, ?_⟩,
          ?_, ?_⟩
        · rw [hbrk, hb.brk]
          simp
        · intro m hm k hk
          have hmM : m ∈ M := by
            cases M with
            | nil => exact absurd rfl hM
            | cons m0 M2 =>
              simp only [List.cons_append, List.head?_cons, Option.some.injEq] at hm
              simp [hm]
          simp only [hk, iff_true]
          exact List.mem_cons_of_mem _ (hb.rest m hmM k hk)
        · intro a ha k hk
          have ha2 : a ∈ M ++ [y] := List.mem_of_mem_tail ha
          rcases List.mem_append.1 ha2 with e | e
          · exact List.mem_cons_of_mem _ (hb.rest a e k hk)
          · have hay : a = y := by simpa using e
            subst hay
            rw [hmemp]
            by_cases hki : k = i
            · exact Or.inl ⟨rfl, hki⟩
            · exact Or.inr ((hfront k hk).2 (by omega))
        · simp only [List.length_append, List.length_cons, List.length_nil]
          have : M.length + (0 + 1) - 1 = M.length + 1 - 1 := by omega
          rw [this]
          omega
        · intro hlt2
          omega
      · -- the head slab stays where it is
        have hL1 : L1 = y :: M := hinv1.chain.unique hch
        subst hL1
        refine ⟨_, _, y :: M, i + 1, hal, ⟨⟨σ1, hinv1⟩, htl, ?_, by omega, fun _ => by omega, ?_, ?_⟩,
          ?_, ?_⟩
        · rw [hbrk, hb.brk]
        · intro y2 hy2 k hk
          have : y2 = y := by
            simp only [List.head?_cons, Option.some.injEq] at hy2
            exact hy2.symm
          subst this
          rw [hmemp]
          constructor
          · rintro (⟨-, e⟩ | e)
            · omega
            · have := (hfront k hk).1 e
              omega
          · intro hk2
            by_cases hki : k = i
            · exact Or.inl ⟨rfl, hki⟩
            · exact Or.inr ((hfront k hk).2 (by omega))
        · intro a ha k hk
          exact List.mem_cons_of_mem _ (hb.rest a ha k hk)
        · omega
        · intro hlt2
          omega
    · -- the head slab is full: a new slab
      have hh : h = c.N := by
        have := hb.le
        omega
      have hroom : ¬ block_block.hasroom c ⟨prevIn (y :: M) y, nextIn (y :: M) y, σ y⟩ = true := by
        rw [(hinv.rep y hy).hasroom hc]
        rintro ⟨k, hk, hnk⟩
        exact hnk ((hfront k hk).2 (by omega))
      have hfresh : l.brk ∉ y :: M := fun e => absurd (hinv.below _ e) (lt_irrefl _)
      obtain ⟨l2, hgrow, hbrk, htl, hch⟩ := hinv.chain.grow_zero hc hfresh
      have hal2 : l.allocate c true = .ok (some ⟨l.brk, 0⟩) l2 := by
        simp only [block_list.allocate, hhead, Option.some_bind, hcy, hroom, hgrow]
        rfl
      rw [hal] at hal2
      injection hal2 with hp hl
      have hp : p = ⟨l.brk, 0⟩ := Option.some.inj hp
      subst hp
      subst hl
      have hL1 : L1 = l.brk :: y :: M := hinv1.chain.unique hch
      subst hL1
      refine ⟨_, _, l.brk :: y :: M, 1, hal, ⟨⟨σ1, hinv1⟩, ?_, ?_, hN, fun _ => le_refl _, ?_, ?_⟩,
        ?_, fun _ => hh⟩
      · rw [htl, hb.tail, List.getLast?_cons_cons]
      · rw [hbrk, hb.brk]
        simp
      · intro y2 hy2 k hk
        have : y2 = l.brk := by
          simp only [List.head?_cons, Option.some.injEq] at hy2
          exact hy2.symm
        subst this
        simp only [List.mem_cons, Ptr.mk.injEq, true_and]
        constructor
        · rintro (e | e)
          · omega
          · exact absurd (hinv.owned _ e).1 hfresh
        · intro hk2
          exact Or.inl (by omega)
      · intro a ha k hk
        have ha2 : a ∈ y :: M := ha
        apply List.mem_cons_of_mem
        rcases List.mem_cons.1 ha2 with e | e
        · subst e
          exact (hfront k hk).2 (by omega)
        · exact hb.rest a e k hk
      · simp only [List.length_cons]
        have e1 : M.length + 1 + 1 - 1 = (M.length + 1 - 1) + 1 := by omega
        rw [e1, Nat.add_mul, hh]
        omega

/-- The arena after `k` allocations on a fresh arena. -/
theorem exec_burst {c : Params} (hc : c.Valid) (k : Nat) :
    ∃ r L h, exec c (List.replicate k Op.alloc) Run.new = .ok r ∧
      Burst c r.arena r.live L h ∧ (L.length - 1) * c.N + h = k := by
  induction k with
  | zero => exact ⟨Run.new, [block_list.block], 0, rfl, Burst.fresh c, by simp⟩
  | succ k ih =>
    obtain ⟨r, L, h, he, hb, hk⟩ := ih
    obtain ⟨p, l1, L1, h1, hal, hb1, hcount, -⟩ := hb.step hc
    refine ⟨{ r with arena := l1, live := p :: r.live, out := p :: r.out,
                     allocs := r.allocs + 1 }, L1, h1, ?_, hb1, by omega⟩
    rw [List.replicate_succ', exec_append, he]
    simp only [exec, step, hal]

theorem ceil_div_of_count {N m h k : Nat} (hN : 0 < N) (hm : 1 ≤ m) (hh : h ≤ N)
    (hpos : 2 ≤ m → 1 ≤ h) (hk : (m - 1) * N + h = k) :
    max 1 ((k + N - 1) / N) = m ∧ (k + N - 1) / N - 1 = m - 1 := by
  by_cases h0 : h = 0
  · have hm1 : m = 1 := by
      by_contra hne
      have := hpos (by omega)
      omega
    subst hm1
    subst h0
    have hk0 : k = 0 := by simpa using hk.symm
    subst hk0
    have : (0 + N - 1) / N = 0 := Nat.div_eq_of_lt (by omega)
    rw [this]
    exact ⟨rfl, rfl⟩
  · have e : (m - 1) * N + N = m * N := by
      have hm2 : m = (m - 1) + 1 := by omega
      conv_rhs => rw [hm2, Nat.add_mul, Nat.one_mul]
    have hd : (k + N - 1) / N = m := by
      apply Nat.div_eq_of_lt_le
      · omega
      · rw [Nat.add_mul, Nat.one_mul]
        omega
    rw [hd]
    exact ⟨Nat.max_eq_right hm, rfl⟩

/-- Claim C18, refuted as stated. With 33 slots per slab (64-bit bitmask) the masks `1<<i`,
formed in 32-bit `int`, tell only 32 slots apart: after 33 allocations on a fresh arena the
list holds 2 slabs and one slab has been obtained from `_alloc`, while `max(1, ceil(33/33))`
is 1. -/
theorem batching_fails_beyond_32_slots :
    (exec ⟨33, 64⟩ (List.replicate 33 Op.alloc) Run.new).toOption.map
        (fun r => (r.arena.slabs.map List.length, r.arena.obtained))
      = some (some 2, 1) ∧
    max 1 ((33 + 33 - 1) / 33) = 1 := by
  decide

/-- Claim C18, amended. For every supported instantiation (1 to 32 slots) and every `k`: the
`k` allocations on a fresh arena all succeed; afterwards the list holds exactly
`max(1, ceil(k / N))` slabs and `ceil(k / N) - 1` slabs (none when that is negative) have been
obtained from `_alloc`; and if the next allocation obtains a new slab, then before it no slab
of the list has room. -/
theorem batching (c : Params) (hc : c.Valid) (k : Nat) :
    ∃ r L, exec c (List.replicate k Op.alloc) Run.new = .ok r ∧ r.arena.slabs = some L ∧
      L.length = max 1 ((k + c.N - 1) / c.N) ∧
      r.arena.obtained = (k + c.N - 1) / c.N - 1 ∧
      ∀ r1, exec c (List.replicate (k + 1) Op.alloc) Run.new = .ok r1 →
        r.arena.obtained < r1.arena.obtained → r.arena.roomy c = [] := by
  obtain ⟨r, L, h, he, hb, hk⟩ := exec_burst hc k
  obtain ⟨σ, hinv⟩ := hb.inv
  have hlen : L.length ≤ r.arena.brk := length_le_of_nodup_of_lt hinv.chain.nodup hinv.below
  have hw := hinv.chain.walk L [] (r.arena.brk + 1) rfl (by omega)
  rw [← hinv.chain.head] at hw
  have hm : 1 ≤ L.length := by
    cases L with
    | nil => exact absurd hinv.emb (by simp)
    | cons y M => simp
  obtain ⟨e1, e2⟩ := ceil_div_of_count hc.1 hm hb.le hb.pos hk
  refine ⟨r, L.map fun a => (a, σ a), he, hw, ?_, ?_, ?_⟩
  · rw [List.length_map, e1]
  · rw [e2]
    simp only [block_list.obtained, hb.brk]
  · intro r1 he1 hlt
    obtain ⟨p, l1, L1, h1, hal, -, -, hfull⟩ := hb.step hc
    rw [List.replicate_succ', exec_append, he] at he1
    simp only [exec, step, hal] at he1
    have hr1 : r1.arena = l1 := by
      injection he1 with e
      rw [← e]
    apply hb.roomy_nil hc
    apply hfull
    rw [hr1] at hlt
    simp only [block_list.obtained] at hlt
    omega

/-- Claim C18, amended, at 8 slots per slab, 64-bit bitmask, 50 allocations. -/
theorem batching_witness :
    Params.Valid ⟨8, 64⟩ ∧
    ∃ r L, exec ⟨8, 64⟩ (List.replicate 50 Op.alloc) Run.new = .ok r ∧ r.arena.slabs = some L ∧
      L.length = max 1 ((50 + (⟨8, 64⟩ : Params).N - 1) / (⟨8, 64⟩ : Params).N) ∧
      r.arena.obtained = (50 + (⟨8, 64⟩ : Params).N - 1) / (⟨8, 64⟩ : Params).N - 1 ∧
      ∀ r1, exec ⟨8, 64⟩ (List.replicate (50 + 1) Op.alloc) Run.new = .ok r1 →
        r.arena.obtained < r1.arena.obtained → r.arena.roomy ⟨8, 64⟩ = [] :=
  ⟨⟨by decide, by decide, Or.inr rfl⟩, batching ⟨8, 64⟩ ⟨by decide, by decide, Or.inr rfl⟩ 50⟩

/-! ## The list of every reachable arena -/

theorem prevIn_append_left {P Q : List Nat} (h : (P ++ Q).Nodup) {a : Nat} (ha : a ∈ P) :
    prevIn (P ++ Q) a = prevIn P a := by
  induction P with
  | nil => simp at ha
  | cons y P ih =>
    have hnd : (y :: (P ++ Q)).Nodup := h
    have hy : y ∉ P ++ Q := (List.nodup_cons.1 hnd).1
    have hPQ : (P ++ Q).Nodup := (List.nodup_cons.1 hnd).2
    rw [List.cons_append, prevIn_cons, prevIn_cons]
    cases P with
    | nil =>
      have hay : a = y := by simpa using ha
      subst hay
      have h1 : ([] ++ Q).head? ≠ some a := fun e => hy (head?_mem e)
      rw [if_neg h1, prevIn_of_not_mem hy]
      simp [prevIn]
    | cons z P2 =>
      simp only [List.cons_append, List.head?_cons]
      by_cases hz : some z = some a
      · rw [if_pos hz, if_pos hz]
      · rw [if_neg hz, if_neg hz]
        by_cases hay : a = y
        · subst hay
          have h3 : a ∉ z :: (P2 ++ Q) := hy
          have : a ∉ z :: P2 := fun e => hy (List.mem_append_left _ e)
          rw [prevIn_of_not_mem h3, prevIn_of_not_mem this]
        · have haP : a ∈ z :: P2 := by
            rcases List.mem_cons.1 ha with e | e
            · exact absurd e hay
            · exact e
          exact ih hPQ haP

theorem nextIn_append_left {P Q : List Nat} (h : (P ++ Q).Nodup) {a : Nat} (ha : a ∈ P)
    (hlast : P.getLast? ≠ some a) : nextIn (P ++ Q) a = nextIn P a := by
  induction P with
  | nil => simp at ha
  | cons y P ih =>
    have hnd : (y :: (P ++ Q)).Nodup := h
    have hy : y ∉ P ++ Q := (List.nodup_cons.1 hnd).1
    have hPQ : (P ++ Q).Nodup := (List.nodup_cons.1 hnd).2
    rw [List.cons_append, nextIn_cons, nextIn_cons]
    by_cases hya : y = a
    · subst hya
      rw [if_pos rfl, if_pos rfl]
      cases P with
      | nil => simp at hlast
      | cons z P2 => rfl
    · rw [if_neg hya, if_neg hya]
      have haP : a ∈ P := by
        rcases List.mem_cons.1 ha with e | e
        · exact absurd e.symm hya
        · exact e
      apply ih hPQ haP
      cases P with
      | nil => simp at haP
      | cons z P2 =>
        rw [List.getLast?_cons_cons] at hlast
        exact hlast

theorem Links.initial : Links block_list.new [block_list.block] := by
  refine ⟨by simp, rfl, ?_, ?_, ?_⟩
  · intro a ha
    simp only [List.mem_singleton] at ha
    subst ha
    exact ⟨block_block.new, by simp [block_list.new], rfl, rfl⟩
  · intro a ha
    simp only [List.mem_singleton] at ha
    simp [ha, block_list.new, block_list.block]
  · intro t ht
    simp only [block_list.new, Option.some.injEq] at ht
    simp [← ht]

/-- The search loop on a list that is linked: it ends at the null link or at a slab of the
list. -/
theorem Links.find_ends {c : Params} {l : block_list} {L : List Nat} (h : Links l L) (p : Ptr) :
    ∀ (L1 L0 : List Nat) (n : Nat), L = L0 ++ L1 → L1.length ≤ n →
      l.find c p n L1.head? = .null ∨ ∃ x, x ∈ L1 ∧ l.find c p n L1.head? = .found x := by
  intro L1
  induction L1 with
  | nil =>
    intro L0 n _ _
    left
    cases n <;> rfl
  | cons a L2 ih =>
    intro L0 n hL hn
    cases n with
    | zero => simp at hn
    | succ n =>
      have hnd : (L0 ++ a :: L2).Nodup := hL ▸ h.nodup
      have ha : a ∈ L := by rw [hL]; simp
      obtain ⟨b, hb, -, hbn⟩ := h.cell a ha
      have hnext : nextIn L a = L2.head? := by rw [hL]; exact nextIn_append_cons hnd
      simp only [List.head?_cons, block_list.find, hb, hbn, hnext]
      by_cases hin : block_block.inblock c a p = true
      · right
        exact ⟨a, List.mem_cons_self _ _, by rw [if_pos hin]⟩
      · rw [if_neg hin]
        rcases ih (L0 ++ [a]) n (by rw [hL]; simp) (by simpa using hn) with e | ⟨x, hx, e⟩
        · exact Or.inl e
        · exact Or.inr ⟨x, List.mem_cons_of_mem _ hx, e⟩

/-- Following `next` from `head` on a list that is linked visits its slabs in order. -/
theorem Links.walk_ends {l : block_list} {L : List Nat} (h : Links l L) :
    ∀ (L1 L0 : List Nat) (n : Nat), L = L0 ++ L1 → L1.length ≤ n →
      ∃ X, l.walk n L1.head? = some X ∧ X.map Prod.fst = L1 := by
  intro L1
  induction L1 with
  | nil =>
    intro L0 n _ _
    exact ⟨[], by cases n <;> rfl, rfl⟩
  | cons a L2 ih =>
    intro L0 n hL hn
    cases n with
    | zero => simp at hn
    | succ n =>
      have hnd : (L0 ++ a :: L2).Nodup := hL ▸ h.nodup
      have ha : a ∈ L := by rw [hL]; simp
      obtain ⟨b, hb, -, hbn⟩ := h.cell a ha
      have hnext : nextIn L a = L2.head? := by rw [hL]; exact nextIn_append_cons hnd
      obtain ⟨X, hX, hX1⟩ := ih (L0 ++ [a]) n (by rw [hL]; simp) (by simpa using hn)
      refine ⟨(a, b.slots) :: X, ?_, by simp [hX1]⟩
      simp only [List.head?_cons, block_list.walk, hb, hbn, hnext, hX, Option.map_some']

theorem Links.store_same {l : block_list} {L : List Nat} (h : Links l L) {x : Nat}
    {b b1 : block_block} (hx : l.heap x = some b) (hp : b1.prev = b.prev)
    (hn : b1.next = b.next) : Links (l.store x b1) L := by
  refine ⟨h.nodup, h.head, ?_, h.below, h.tail⟩
  intro a ha
  by_cases hax : a = x
  · subst hax
    obtain ⟨b0, hb0, hp0, hn0⟩ := h.cell a ha
    rw [hx] at hb0
    have e : b = b0 := Option.some.inj hb0
    subst e
    exact ⟨b1, by simp [block_list.store], hp.trans hp0, hn.trans hn0⟩
  · obtain ⟨b0, hb0, hp0, hn0⟩ := h.cell a ha
    exact ⟨b0, by simp [block_list.store, Function.update_apply, hax, hb0], hp0, hn0⟩

theorem Links.unlink_links {l : block_list} {L : List Nat} (h : Links l L) {x : Nat} (hx : x ∈ L) :
    ∃ l1, l.unlink x = some l1 ∧ l1.head = l.head ∧ l1.tail = l.tail ∧ l1.brk = l.brk ∧
      (∃ b, l1.heap x = some b ∧ b.prev = prevIn L x ∧ b.next = nextIn L x) ∧
      ∀ a, a ∈ L.erase x → ∃ b, l1.heap a = some b ∧ b.prev = prevIn (L.erase x) a ∧
        b.next = nextIn (L.erase x) a := by
  have hL := h.nodup
  obtain ⟨bx, hbx, hpx, hnx⟩ := h.cell x hx
  obtain ⟨l1, h1, hh, ht, hb, -, hcell⟩ := unlink_eq hbx
    (fun q hq => ⟨prevIn_ne hL (hpx ▸ hq), by
      obtain ⟨bq, hbq, -, -⟩ := h.cell q (prevIn_mem (hpx ▸ hq)).1
      exact ⟨bq, hbq⟩⟩)
    (fun n hn => ⟨nextIn_ne hL (hnx ▸ hn), by
      rw [hpx]
      exact nextIn_prevIn_ne hL (hnx ▸ hn), by
      obtain ⟨bn, hbn, -, -⟩ := h.cell n (nextIn_mem (hnx ▸ hn)).1
      exact ⟨bn, hbn⟩⟩)
  refine ⟨l1, h1, hh, ht, hb, ?_, ?_⟩
  · refine ⟨bx, ?_, hpx, hnx⟩
    rw [hcell x, hnx, hpx]
    have e1 : nextIn L x ≠ some x := fun e => nextIn_ne hL e rfl
    have e2 : prevIn L x ≠ some x := fun e => prevIn_ne hL e rfl
    rw [if_neg e1, if_neg e2, hbx]
  · intro a ha
    have hmem := (List.Nodup.mem_erase_iff hL).1 ha
    have hax : a ≠ x := hmem.1
    obtain ⟨ba, hba, hpa, hna⟩ := h.cell a hmem.2
    rw [hcell a, hnx, hpx, hba, nextIn_erase hL hax, prevIn_erase hL hax]
    by_cases hn : nextIn L x = some a
    · have e1 : prevIn L a = some x := (nextIn_iff_prevIn hL).1 hn
      have e2 : nextIn L a ≠ some x := fun e => nextIn_prevIn_ne hL e e1
      rw [if_pos hn, if_pos e1, if_neg e2]
      exact ⟨_, rfl, rfl, hna⟩
    · rw [if_neg hn]
      have e1 : prevIn L a ≠ some x := fun e => hn ((nextIn_iff_prevIn hL).2 e)
      rw [if_neg e1]
      by_cases hp : prevIn L x = some a
      · have e2 : nextIn L a = some x := (nextIn_iff_prevIn hL).2 hp
        rw [if_pos hp, if_pos e2]
        exact ⟨_, rfl, hpa, rfl⟩
      · have e2 : nextIn L a ≠ some x := fun e => hp ((nextIn_iff_prevIn hL).1 e)
        rw [if_neg hp, if_neg e2]
        exact ⟨ba, rfl, hpa, hna⟩

/-- The detach branch on a list that is linked removes `x`; `tail` stays in the list. -/
theorem Links.detach_links {l : block_list} {L : List Nat} (h : Links l L) {x : Nat} (hx : x ∈ L) :
    ∃ l1, l.detach x = some l1 ∧ Links l1 (L.erase x) := by
  have hL := h.nodup
  obtain ⟨l3, h3, hh, ht, hb, ⟨bx, hbx, hpx, hnx⟩, hcell⟩ := h.unlink_links hx
  refine ⟨{ refcount := l3.refcount, heap := Function.update l3.heap x none, brk := l3.brk,
            head := if l3.head = some x then bx.next else l3.head,
            tail := if l3.tail = some x then bx.prev else l3.tail }, ?_, ?_⟩
  · simp only [block_list.detach, h3, Option.bind_eq_bind, Option.some_bind, hbx]
    by_cases h1 : l3.head = some x <;> by_cases h2 : l3.tail = some x <;>
      simp [h1, h2, hbx, block_list._free]
  · refine ⟨hL.erase x, ?_, ?_, ?_, ?_⟩
    · show (if l3.head = some x then bx.next else l3.head) = (L.erase x).head?
      rw [head?_erase hL, ← h.head, ← hh, hnx]
    · intro a ha
      have hax : a ≠ x := ((List.Nodup.mem_erase_iff hL).1 ha).1
      obtain ⟨b, hb1, hp1, hn1⟩ := hcell a ha
      exact ⟨b, by simp [Function.update_apply, hax, hb1], hp1, hn1⟩
    · intro a ha
      show a < l3.brk
      rw [hb]
      exact h.below a (List.mem_of_mem_erase ha)
    · intro t htl0
      have htl : (if l3.tail = some x then bx.prev else l3.tail) = some t := htl0
      clear htl0
      by_cases h2 : l3.tail = some x
      · rw [if_pos h2, hpx] at htl
        exact (List.Nodup.mem_erase_iff hL).2 ⟨prevIn_ne hL htl, (prevIn_mem htl).1⟩
      · rw [if_neg h2] at htl
        have htx : t ≠ x := by
          intro e
          exact h2 (e ▸ htl)
        exact (List.Nodup.mem_erase_iff hL).2 ⟨htx, h.tail t (ht ▸ htl)⟩

/-- The move-to-head branch on a list that is linked puts `x` first. -/
theorem Links.tohead_links {l : block_list} {L : List Nat} (h : Links l L) {x : Nat} (hx : x ∈ L)
    (hne : l.head ≠ some x) :
    ∃ l1, l.tohead x = some l1 ∧ Links l1 (x :: L.erase x) := by
  have hL := h.nodup
  obtain ⟨l3, h3, hh, ht, hb, ⟨bx, hbx, hpx, hnx⟩, hcell⟩ := h.unlink_links hx
  obtain ⟨y, hy⟩ : ∃ y, L.head? = some y := by
    cases L with
    | nil => simp at hx
    | cons y M => exact ⟨y, rfl⟩
  have hyx : y ≠ x := by
    rintro rfl
    exact hne (h.head.trans hy)
  have hyE : y ∈ L.erase x := (List.Nodup.mem_erase_iff hL).2 ⟨hyx, head?_mem hy⟩
  have hxE : x ∉ L.erase x := fun e => ((List.Nodup.mem_erase_iff hL).1 e).1 rfl
  have hEh : (L.erase x).head? = some y := by
    rw [head?_erase hL, hy, if_neg]
    intro e
    exact hyx (Option.some.inj e)
  obtain ⟨by3, hby3, hpy3, hny3⟩ := hcell y hyE
  have hh3 : l3.head = some y := by rw [hh, h.head, hy]
  refine ⟨{ refcount := l3.refcount,
            heap := Function.update (Function.update l3.heap x (some ⟨none, some y, bx.slots⟩)) y
              (some ⟨some x, by3.next, by3.slots⟩),
            brk := l3.brk, head := some x, tail := l3.tail }, ?_, ?_⟩
  · simp [block_list.tohead, h3, hbx, hh3, hby3, block_list.store, Function.update_apply, hyx]
  · refine ⟨List.nodup_cons.2 ⟨hxE, hL.erase x⟩, rfl, ?_, ?_, ?_⟩
    · intro a ha
      rw [nextIn_cons, prevIn_cons, hEh]
      by_cases hay : a = y
      · subst hay
        refine ⟨⟨some x, by3.next, by3.slots⟩, by simp, by simp, ?_⟩
        simp [Ne.symm hyx, hny3]
      · have e1 : ¬ (some y = some a) := fun e => hay (Option.some.inj e).symm
        by_cases hax : a = x
        · subst hax
          refine ⟨⟨none, some y, bx.slots⟩, by simp [Function.update_apply, hay], ?_, by simp⟩
          simp [e1, prevIn_of_not_mem hxE]
        · have haE : a ∈ L.erase x := by
            rcases List.mem_cons.1 ha with e | e
            · exact absurd e hax
            · exact e
          obtain ⟨b, hb1, hp1, hn1⟩ := hcell a haE
          refine ⟨b, by simp [Function.update_apply, hay, hax, hb1], ?_, ?_⟩
          · rw [if_neg e1, hp1]
          · rw [if_neg (fun e => hax e.symm), hn1]
    · intro a ha
      show a < l3.brk
      rw [hb]
      rcases List.mem_cons.1 ha with e | e
      · exact e ▸ h.below x hx
      · exact h.below a (List.mem_of_mem_erase e)
    · intro t htl
      have htl : l3.tail = some t := htl
      exact (List.perm_cons_erase hx).mem_iff.1 (h.tail t (ht ▸ htl))

/-- The body of `deallocate` on a list that is linked leaves a list that is linked. -/
theorem Links.settle_links {l : block_list} {L : List Nat} (h : Links l L) {x : Nat} (hx : x ∈ L)
    (c : Params) (p : Ptr) :
    ∃ l1 L1, l.settle c p x = some l1 ∧ Links l1 L1 := by
  obtain ⟨bx, hbx, -, -⟩ := h.cell x hx
  have h2 : Links (l.store x (bx.deallocate c p.idx)) L := h.store_same hbx rfl rfl
  have e : l.settle c p x =
      if ((bx.deallocate c p.idx).isempty && x != block_list.block) = true then
        (l.store x (bx.deallocate c p.idx)).detach x
      else if (!bx.hasroom c && l.head != some x) = true then
        (l.store x (bx.deallocate c p.idx)).tohead x
      else some (l.store x (bx.deallocate c p.idx)) := by
    simp only [block_list.settle, hbx, Option.bind_eq_bind, Option.some_bind,
      block_list.store, Function.update_same, Option.pure_def]
  rw [e]
  by_cases h1 : ((bx.deallocate c p.idx).isempty && x != block_list.block) = true
  · rw [if_pos h1]
    obtain ⟨l1, hd, hl⟩ := h2.detach_links hx
    exact ⟨l1, _, hd, hl⟩
  · rw [if_neg h1]
    by_cases h3 : (!bx.hasroom c && l.head != some x) = true
    · rw [if_pos h3]
      have hne : (l.store x (bx.deallocate c p.idx)).head ≠ some x := by
        simp only [Bool.and_eq_true, bne_iff_ne, ne_eq] at h3
        exact h3.2
      obtain ⟨l1, hd, hl⟩ := h2.tohead_links hx hne
      exact ⟨l1, _, hd, hl⟩
    · rw [if_neg h3]
      exact ⟨_, L, rfl, h2⟩

theorem Links.length_le {l : block_list} {L : List Nat} (h : Links l L) : L.length ≤ l.brk :=
  length_le_of_nodup_of_lt h.nodup h.below

/-- A `deallocate` that returns leaves a list that is linked. -/
theorem Links.deallocate_links {l : block_list} {L : List Nat} (h : Links l L) (c : Params)
    (p : Ptr) {l1 : block_list} (hd : l.deallocate c p = .ok () l1) : ∃ L1, Links l1 L1 := by
  have hlen := h.length_le
  have hf := h.find_ends (c := c) p L [] (l.brk + 1) rfl (by omega)
  rw [← h.head] at hf
  rcases hf with e | ⟨x, hx, e⟩
  · simp only [block_list.deallocate, e] at hd
    cases hd
  · obtain ⟨l2, L2, hs, hl2⟩ := h.settle_links hx c p
    simp only [block_list.deallocate, e, hs] at hd
    injection hd with _ e2
    exact ⟨L2, e2 ▸ hl2⟩

/-- Moving `head` behind `tail` on a list that is linked, `tail` being any slab of the list
but `head`: the slabs after `tail` drop out of the list. -/
theorem Links.demote_cut {l : block_list} {y m t : Nat} {P2 Q : List Nat}
    (h : Links l (y :: (m :: P2 ++ Q))) (hlast : (m :: P2).getLast? = some t)
    (ht : l.tail = some t) :
    ∃ l1, l.demote = some l1 ∧ Links l1 (m :: P2 ++ [y]) := by
  have hL := h.nodup
  have hyM : y ∉ m :: P2 ++ Q := (List.nodup_cons.1 hL).1
  have hPQ : (m :: P2 ++ Q).Nodup := (List.nodup_cons.1 hL).2
  have hP : (m :: P2).Nodup := (List.nodup_append.1 hPQ).1
  have hyP : y ∉ m :: P2 := fun e => hyM (List.mem_append_left _ e)
  have htP : t ∈ m :: P2 := List.mem_of_getLast?_eq_some hlast
  have hty : t ≠ y := fun e => hyP (e ▸ htP)
  have hmy : m ≠ y := fun e => hyP (by simp [e])
  have hmL : m ∈ y :: (m :: P2 ++ Q) := by simp
  have htL : t ∈ y :: (m :: P2 ++ Q) := List.mem_cons_of_mem _ (List.mem_append_left _ htP)
  have hhead : l.head = some y := h.head
  obtain ⟨⟨yp, yn, ys⟩, hcy, -, hyn⟩ := h.cell y (List.mem_cons_self _ _)
  obtain ⟨⟨tp, tn, ts⟩, hct, htp, -⟩ := h.cell t htL
  obtain ⟨⟨mp, mn, ms⟩, hcm, -, hmn⟩ := h.cell m hmL
  simp only at hyn htp hmn
  have hny : nextIn (y :: (m :: P2 ++ Q)) y = some m := by simp [nextIn]
  rw [hny] at hyn
  subst hyn
  -- links of the old list, seen from the part that stays
  have hprev : ∀ a, a ∈ m :: P2 → a ≠ m →
      prevIn (y :: (m :: P2 ++ Q)) a = prevIn (m :: P2) a := by
    intro a ha ham
    rw [prevIn_cons, if_neg, prevIn_append_left hPQ ha]
    simp only [List.cons_append, List.head?_cons, Option.some.injEq]
    exact fun e => ham e.symm
  have hnext : ∀ a, a ∈ m :: P2 → a ≠ t →
      nextIn (y :: (m :: P2 ++ Q)) a = nextIn (m :: P2) a := by
    intro a ha hat
    have hya : y ≠ a := fun e => hyP (e ▸ ha)
    rw [nextIn_cons, if_neg hya, nextIn_append_left hPQ ha]
    rw [hlast]
    exact fun e => hat (Option.some.inj e).symm
  refine ⟨{ refcount := l.refcount,
            heap := Function.update (Function.update (Function.update l.heap t
                (some ⟨tp, some y, ts⟩)) y (some ⟨some t, none, ys⟩)) m
                (some ⟨none, if m = t then some y else mn, ms⟩),
            brk := l.brk, head := some m, tail := some y }, ?_, ?_⟩
  · by_cases hmt : m = t
    · subst hmt
      have e0 : (⟨tp, tn, ts⟩ : block_block) = ⟨mp, mn, ms⟩ :=
        Option.some.inj (hct.symm.trans hcm)
      have e1 : ts = ms := congrArg block_block.slots e0
      subst e1
      simp [block_list.demote, ht, hhead, hct, hcy, block_list.store,
        Function.update_apply, hmy, Ne.symm hmy]
    · simp [block_list.demote, ht, hhead, hct, hcy, hcm, block_list.store,
        Function.update_apply, hmy, Ne.symm hmy, hty, Ne.symm hty, hmt, Ne.symm hmt]
  · refine ⟨List.Nodup.append hP (by simp) (by simpa using hyP), rfl, ?_, ?_, ?_⟩
    · intro a ha
      rw [nextIn_concat hP hyP, prevIn_concat hP hyP, hlast]
      by_cases ham : a = m
      · subst ham
        have e1 : prevIn (a :: P2) a = none := (prevIn_eq_none_iff hP (by simp)).2 rfl
        refine ⟨⟨none, if a = t then some y else mn, ms⟩, by simp, ?_, ?_⟩
        · simp [hmy, e1]
        · by_cases hat : a = t
          · subst hat
            simp [hmy]
          · have : ¬ (some t = some a) := fun e => hat (Option.some.inj e).symm
            rw [if_neg hmy, if_neg hat, if_neg this, hmn, hnext a (by simp) hat]
      · by_cases hay : a = y
        · subst hay
          exact ⟨⟨some t, none, ys⟩, by simp [Function.update_apply, ham], by simp, by simp⟩
        · have haP : a ∈ m :: P2 := by
            rcases List.mem_append.1 ha with e | e
            · exact e
            · exact absurd (by simpa using e) hay
          by_cases hat : a = t
          · subst hat
            refine ⟨⟨tp, some y, ts⟩, by simp [Function.update_apply, ham, hay], ?_, by simp [hay]⟩
            rw [if_neg hay]
            show tp = _
            rw [htp, hprev a haP ham]
          · obtain ⟨b, hb, hbp, hbn⟩ := h.cell a (List.mem_cons_of_mem _ (List.mem_append_left _ haP))
            have : ¬ (some t = some a) := fun e => hat (Option.some.inj e).symm
            refine ⟨b, by simp [Function.update_apply, ham, hay, hat, hb], ?_, ?_⟩
            · rw [if_neg hay, hbp, hprev a haP ham]
            · rw [if_neg hay, if_neg this, hbn, hnext a haP hat]
    · intro a ha
      show a < l.brk
      apply h.below
      rcases List.mem_append.1 ha with e | e
      · exact List.mem_cons_of_mem _ (List.mem_append_left _ e)
      · have : a = y := by simpa using e
        simp [this]
    · intro t2 ht2
      have ht2 : some y = some t2 := ht2
      have : y = t2 := Option.some.inj ht2
      simp [← this]

theorem block_block.allocate_keeps_links (c : Params) (b : block_block) :
    (b.allocate c).2.prev = b.prev ∧ (b.allocate c).2.next = b.next := by
  unfold block_block.allocate
  cases block_block.scan c b.slots c.N 0 with
  | none => exact ⟨rfl, rfl⟩
  | some x => exact ⟨rfl, rfl⟩

/-- The new-slab branch of `allocate` on a list that is linked puts the new slab first. -/
theorem Links.grow_links {l : block_list} {y : Nat} {M : List Nat} (h : Links l (y :: M))
    (c : Params) :
    ∃ r l1, l.grow c true = some (r, l1) ∧ Links l1 (l.brk :: y :: M) := by
  have hy : y ∈ y :: M := List.mem_cons_self y M
  have hfresh : l.brk ∉ y :: M := fun e => absurd (h.below _ e) (lt_irrefl _)
  have hby : l.brk ≠ y := fun e => hfresh (by simp [e])
  have hh : l.head = some y := h.head
  obtain ⟨⟨yp, yn, ys⟩, hcy, -, hyn⟩ := h.cell y hy
  simp only at hyn
  have hlinks := block_block.allocate_keeps_links c ⟨none, some y, 0⟩
  rcases hal : block_block.allocate c ⟨none, some y, 0⟩ with ⟨r0, b0⟩
  rw [hal] at hlinks
  simp only at hlinks
  refine ⟨r0.map (Ptr.mk l.brk),
    { refcount := l.refcount,
      heap := Function.update (Function.update l.heap y (some ⟨some l.brk, yn, ys⟩)) l.brk
        (some b0),
      brk := l.brk + 1, head := some l.brk, tail := l.tail }, ?_, ?_⟩
  · simp [block_list.grow, block_list._alloc, block_list.store, block_block.new, hh,
      Function.update_apply, hby, Ne.symm hby, hcy, hal]
    funext a
    by_cases hab : a = l.brk
    · subst hab
      simp only [Function.update_same]
    · simp only [Function.update_apply, if_neg hab]
  · refine ⟨List.nodup_cons.2 ⟨hfresh, h.nodup⟩, rfl, ?_, ?_, ?_⟩
    · intro a ha
      have en : nextIn (l.brk :: y :: M) a = if l.brk = a then some y else nextIn (y :: M) a := rfl
      have ep : prevIn (l.brk :: y :: M) a = if y = a then some l.brk else prevIn (y :: M) a := by
        rw [prevIn_cons]
        simp only [List.head?_cons, Option.some.injEq]
      rw [en, ep]
      by_cases hab : a = l.brk
      · subst hab
        refine ⟨b0, by simp, ?_, ?_⟩
        · rw [if_neg (Ne.symm hby), hlinks.1, prevIn_of_not_mem hfresh]
        · rw [if_pos rfl, hlinks.2]
      · have hba : ¬ l.brk = a := fun e => hab e.symm
        by_cases hay : a = y
        · subst hay
          exact ⟨⟨some l.brk, yn, ys⟩, by simp [Function.update_apply, hab], by simp,
            by simp [hba, hyn]⟩
        · have hya : ¬ y = a := fun e => hay e.symm
          have haL : a ∈ y :: M := by
            rcases List.mem_cons.1 ha with e | e
            · exact absurd e hab
            · exact e
          obtain ⟨b, hb, hbp, hbn⟩ := h.cell a haL
          exact ⟨b, by simp [Function.update_apply, hab, hay, hb], by rw [if_neg hya, hbp],
            by rw [if_neg hba, hbn]⟩
    · intro a ha
      show a < l.brk + 1
      rcases List.mem_cons.1 ha with e | e
      · omega
      · have := h.below a e
        omega
    · intro t ht
      exact List.mem_cons_of_mem _ (h.tail t ht)

/-- The branch of `allocate` that takes a slot of `head`, on a list that is linked: when it
returns, the list is linked. -/
theorem Links.take_links {l : block_list} {y : Nat} {M : List Nat} (h : Links l (y :: M))
    (c : Params) {r : Option Ptr} {l1 : block_list} (ht : l.take c = some (r, l1)) :
    ∃ L1, Links l1 L1 := by
  have hy : y ∈ y :: M := List.mem_cons_self y M
  have hh : l.head = some y := h.head
  obtain ⟨by0, hcy, -, -⟩ := h.cell y hy
  have hlinks := block_block.allocate_keeps_links c by0
  rcases hal : block_block.allocate c by0 with ⟨r0, b0⟩
  rw [hal] at hlinks
  simp only at hlinks
  have h2 : Links (l.store y b0) (y :: M) := h.store_same hcy hlinks.1 hlinks.2
  have e : l.take c =
      if (!b0.hasroom c && l.head != l.tail) = true then
        ((l.store y b0).demote).bind (fun l2 => some (r0.map (Ptr.mk y), l2))
      else some (r0.map (Ptr.mk y), l.store y b0) := by
    simp only [block_list.take, hh, hcy, Option.bind_eq_bind, Option.some_bind, hal,
      block_list.store, Function.update_same, Option.pure_def]
  rw [e] at ht
  by_cases hcond : (!b0.hasroom c && l.head != l.tail) = true
  · rw [if_pos hcond] at ht
    simp only [Bool.and_eq_true, bne_iff_ne, ne_eq] at hcond
    cases htl : l.tail with
    | none =>
      have : (l.store y b0).demote = none := by
        simp [block_list.demote, block_list.store, htl]
      rw [this] at ht
      simp at ht
    | some t =>
      have htL : t ∈ y :: M := h.tail t htl
      have hty : t ≠ y := by
        intro e1
        apply hcond.2
        rw [hh, htl, e1]
      have htM : t ∈ M := by
        rcases List.mem_cons.1 htL with e1 | e1
        · exact absurd e1 hty
        · exact e1
      obtain ⟨s, Q, hM⟩ := List.append_of_mem htM
      obtain ⟨m, P2, hP, hlast⟩ : ∃ m P2, s ++ [t] = m :: P2 ∧ (m :: P2).getLast? = some t := by
        cases s with
        | nil => exact ⟨t, [], rfl, rfl⟩
        | cons m s2 => exact ⟨m, s2 ++ [t], rfl, by
            rw [← List.cons_append]
            exact List.getLast?_concat _⟩
      have hM2 : M = m :: P2 ++ Q := by
        rw [hM, ← hP]
        simp
      subst hM2
      obtain ⟨l3, hd, hl3⟩ := h2.demote_cut hlast (show (l.store y b0).tail = some t from htl)
      rw [hd] at ht
      simp only [Option.some_bind, Option.some.injEq, Prod.mk.injEq] at ht
      exact ⟨_, ht.2 ▸ hl3⟩
  · rw [if_neg hcond] at ht
    simp only [Option.some.injEq, Prod.mk.injEq] at ht
    exact ⟨_, ht.2 ▸ h2⟩

/-- An `allocate` that returns leaves a list that is linked. -/
theorem Links.allocate_links {l : block_list} {L : List Nat} (h : Links l L) (c : Params)
    {r : Option Ptr} {l1 : block_list} (ha : l.allocate c true = .ok r l1) :
    ∃ L1, Links l1 L1 := by
  cases L with
  | nil =>
    have hh : l.head = none := h.head
    simp [block_list.allocate, hh] at ha
  | cons y M =>
    have hh : l.head = some y := h.head
    obtain ⟨by0, hcy, -, -⟩ := h.cell y (List.mem_cons_self y M)
    simp only [block_list.allocate, hh, Option.some_bind, hcy] at ha
    by_cases hroom : by0.hasroom c = true
    · rw [if_pos hroom] at ha
      cases ht : l.take c with
      | none =>
        rw [ht] at ha
        cases ha
      | some x =>
        obtain ⟨r2, l2⟩ := x
        rw [ht] at ha
        injection ha with _ e2
        obtain ⟨L1, hl⟩ := h.take_links c ht
        exact ⟨L1, e2 ▸ hl⟩
    · rw [if_neg hroom] at ha
      obtain ⟨r2, l2, hg, hl⟩ := h.grow_links c
      rw [hg] at ha
      injection ha with _ e2
      exact ⟨_, e2 ▸ hl⟩

/-- A call that returns leaves a list that is linked. -/
theorem step_links (c : Params) (o : Op) {r r2 : Run} (hl : ∃ L, Links r.arena L)
    (hs : step c r o = .ok r2) : ∃ L1, Links r2.arena L1 := by
  obtain ⟨L, hl⟩ := hl
  cases o with
  | alloc =>
    simp only [step] at hs
    cases ha : r.arena.allocate c true with
    | ok q l2 =>
      rw [ha] at hs
      cases q with
      | none => cases hs
      | some p =>
        simp only at hs
        injection hs with e
        obtain ⟨L1, hl1⟩ := hl.allocate_links c ha
        exact ⟨L1, by rw [← e]; exact hl1⟩
    | bad_alloc s =>
      rw [ha] at hs
      cases hs
    | fault =>
      rw [ha] at hs
      cases hs
    | hang =>
      rw [ha] at hs
      cases hs
  | dealloc p =>
    simp only [step] at hs
    by_cases hp : p ∈ r.live
    · rw [if_pos hp] at hs
      cases hd : r.arena.deallocate c p with
      | ok u l2 =>
        rw [hd] at hs
        simp only at hs
        injection hs with e
        obtain ⟨L1, hl1⟩ := hl.deallocate_links c p hd
        exact ⟨L1, by rw [← e]; exact hl1⟩
      | bad_alloc s =>
        rw [hd] at hs
        cases hs
      | fault =>
        rw [hd] at hs
        cases hs
      | hang =>
        rw [hd] at hs
        cases hs
    · rw [if_neg hp] at hs
      cases hs

/-- Every arena reached by a call sequence in which every call returned has a list that is
linked. -/
theorem exec_links (c : Params) (ops : List Op) :
    ∀ (r r1 : Run), (∃ L, Links r.arena L) → exec c ops r = .ok r1 → ∃ L1, Links r1.arena L1 := by
  induction ops with
  | nil =>
    intro r r1 hl he
    simp only [exec] at he
    injection he with e
    exact e ▸ hl
  | cons o os ih =>
    intro r r1 hl he
    simp only [exec] at he
    cases hs : step c r o with
    | error e =>
      rw [hs] at he
      cases he
    | ok r2 =>
      rw [hs] at he
      exact ih r2 r1 (step_links c o hl hs) he

/-- On a list that is linked the search loop of `deallocate` ends within `brk + 1` iterations,
at the null link or at a slab of the list. -/
theorem Links.find_total {l : block_list} {L : List Nat} (h : Links l L) (c : Params) (p : Ptr) :
    l.find c p (l.brk + 1) l.head = .null ∨
      ∃ x, x ∈ L ∧ l.find c p (l.brk + 1) l.head = .found x := by
  have hlen := h.length_le
  have hf := h.find_ends (c := c) p L [] (l.brk + 1) rfl (by omega)
  rw [← h.head] at hf
  exact hf

/-- On a list that is linked `deallocate` does not run out of iterations. -/
theorem Links.deallocate_ends {l : block_list} {L : List Nat} (h : Links l L) (c : Params)
    (p : Ptr) : l.deallocate c p ≠ .hang := by
  rcases h.find_total c p with e | ⟨x, -, e⟩
  · simp only [block_list.deallocate, e]
    intro e1
    cases e1
  · simp only [block_list.deallocate, e]
    cases l.settle c p x with
    | none =>
      intro e1
      cases e1
    | some l1 =>
      intro e1
      cases e1

/-- No call of `allocate` runs out of iterations: it has no loop over the list. -/
theorem block_list.allocate_ends (c : Params) (avail : Bool) (l : block_list) :
    l.allocate c avail ≠ .hang := by
  unfold block_list.allocate
  cases l.head.bind l.heap with
  | none =>
    intro e1
    cases e1
  | some hb =>
    simp only
    cases (if hb.hasroom c = true then l.take c else l.grow c avail) with
    | none =>
      intro e1
      cases e1
    | some x =>
      intro e1
      cases e1

/-- No call sequence on a list that is linked stops because a search loop ran out of
iterations. -/
theorem exec_ends (c : Params) (ops : List Op) :
    ∀ r : Run, (∃ L, Links r.arena L) → stopped (exec c ops r) ≠ some .hang := by
  induction ops with
  | nil =>
    intro r _ e
    cases e
  | cons o os ih =>
    intro r hl
    simp only [exec]
    cases hs : step c r o with
    | ok r2 => exact ih r2 (step_links c o hl hs)
    | error e =>
      simp only [stopped]
      intro e1
      injection e1 with e1
      subst e1
      obtain ⟨L, hl⟩ := hl
      cases o with
      | alloc =>
        simp only [step] at hs
        have hne := block_list.allocate_ends c true r.arena
        cases ha : r.arena.allocate c true with
        | ok q l2 =>
          rw [ha] at hs
          cases q with
          | none => cases hs
          | some p => cases hs
        | bad_alloc s =>
          rw [ha] at hs
          cases hs
        | fault =>
          rw [ha] at hs
          cases hs
        | hang => exact hne ha
      | dealloc p =>
        simp only [step] at hs
        by_cases hp : p ∈ r.live
        · rw [if_pos hp] at hs
          have hne := hl.deallocate_ends c p
          cases hd : r.arena.deallocate c p with
          | ok u l2 =>
            rw [hd] at hs
            cases hs
          | bad_alloc s =>
            rw [hd] at hs
            cases hs
          | fault =>
            rw [hd] at hs
            cases hs
          | hang => exact hne hd
        · rw [if_neg hp] at hs
          cases hs

/-- Claim C19. For every number of slots and bitmask width, in every state that a call
sequence on a fresh arena reaches with every call returned (each `dealloc` of a pointer that
is live): following `next` from `head` reaches the null link within `brk + 1` steps through
slabs that exist, no slab is met twice, and for every pointer the search loop of `deallocate`
ends within `brk + 1` iterations, at the null link or at a slab of that list, so that
`deallocate` never runs out of iterations. -/
theorem scan_terminates (c : Params) (ops : List Op)
    (h : stopped (exec c ops Run.new) = none) :
    ∃ r X, exec c ops Run.new = .ok r ∧ r.arena.slabs = some X ∧ (X.map Prod.fst).Nodup ∧
      ∀ p : Ptr,
        (r.arena.find c p (r.arena.brk + 1) r.arena.head = .null ∨
          ∃ x, x ∈ X.map Prod.fst ∧
            r.arena.find c p (r.arena.brk + 1) r.arena.head = .found x) ∧
        r.arena.deallocate c p ≠ .hang := by
  cases he : exec c ops Run.new with
  | error e =>
    rw [he] at h
    cases h
  | ok r =>
    obtain ⟨L, hl⟩ := exec_links c ops Run.new r ⟨_, Links.initial⟩ he
    have hlen := hl.length_le
    obtain ⟨X, hX, hXL⟩ := hl.walk_ends L [] (r.arena.brk + 1) rfl (by omega)
    rw [← hl.head] at hX
    refine ⟨r, X, rfl, hX, ?_, ?_⟩
    · rw [hXL]
      exact hl.nodup
    · intro p
      rw [hXL]
      exact ⟨hl.find_total c p, hl.deallocate_ends c p⟩

/-- Claim C19, with two slots per slab and a 64-bit bitmask, on a sequence that leaves `tail`
out of date and cuts a slab off the list. -/
theorem scan_terminates_witness :
    stopped (exec ⟨2, 64⟩
      [Op.alloc, Op.alloc, Op.alloc, Op.dealloc ⟨0, 0⟩, Op.alloc, Op.alloc, Op.alloc]
      Run.new) = none ∧
    ∃ r X, exec ⟨2, 64⟩
        [Op.alloc, Op.alloc, Op.alloc, Op.dealloc ⟨0, 0⟩, Op.alloc, Op.alloc, Op.alloc]
        Run.new = .ok r ∧ r.arena.slabs = some X ∧ (X.map Prod.fst).Nodup ∧
      ∀ p : Ptr,
        (r.arena.find ⟨2, 64⟩ p (r.arena.brk + 1) r.arena.head = .null ∨
          ∃ x, x ∈ X.map Prod.fst ∧
            r.arena.find ⟨2, 64⟩ p (r.arena.brk + 1) r.arena.head = .found x) ∧
        r.arena.deallocate ⟨2, 64⟩ p ≠ .hang :=
  ⟨by decide, scan_terminates ⟨2, 64⟩
    [Op.alloc, Op.alloc, Op.alloc, Op.dealloc ⟨0, 0⟩, Op.alloc, Op.alloc, Op.alloc]
    (by decide)⟩

end cutepig
